import Mathlib

/-!
Verification of the reference-cleaning scripts (`clean.py`, `clean_mf.py`,
`clean_csv.py`, `clean_xlsx.py`).

Shallow embedding conventions:
* Python strings are modelled as `List Char` (`Str`).  All concrete inputs in
  the theorems are ASCII; accordingly `unicodedata.normalize('NFKD', ·)` and
  the removal of non-spacing marks — both identities on ASCII text — are
  modelled as the identity, and `str.lower` / `re`'s `\w`, `\s` classes are
  modelled by their ASCII behaviour.
* Python floats produced by `difflib.SequenceMatcher.ratio` (`2*M/T`) are
  modelled as exact rationals (`ℚ`); the thresholds 0.95 and 0.8 are the exact
  rationals 95/100 and 8/10.  Inside the executable matcher the strict float
  comparison `ratio > threshold` is computed by the equivalent integer
  cross-multiplication (`simGt`, proved equivalent in `simGt_iff`), since
  rational division does not reduce in the kernel.
* `difflib.SequenceMatcher` is embedded without junk handling: the scripts
  construct it with `isjunk=None`, and the `autojunk` heuristic only fires for
  second strings of length ≥ 200, outside the inputs treated here.
* A value that can be a string, `None`, or a float NaN (as produced by
  `dict.get` / pandas cells) is modelled by the inductive `PyVal`; code that
  would raise on such a value is modelled with `Except`.
* Entries of `clean.py`/`clean_mf.py` are modelled by `BibEntry`, keeping the
  fields the matching logic reads (`title`, `author`, `doi`); a missing dict
  key is `Option.none`.  The `id()`-based "removed" set of
  `clean.py:deduplicate_entries` is modelled by list indices: every parsed
  entry is a fresh dict, so object identity coincides with position in
  `all_entries`.
-/

namespace RefClean


/-- Python strings, as lists of characters. -/
abbrev Str := List Char

/-- ASCII model of Python's `str.lower` (the core `Char.toLower` branch). -/
def pyLower (c : Char) : Char :=
  if 65 ≤ c.toNat ∧ c.toNat ≤ 90 then Char.ofNat (c.toNat + 32) else c

/-- ASCII model of the regex class `\w`: letters, digits and underscore. -/
def isWordChar (c : Char) : Bool :=
  (('a' ≤ c ∧ c ≤ 'z') ∨ ('A' ≤ c ∧ c ≤ 'Z') ∨ ('0' ≤ c ∧ c ≤ '9') ∨ c = '_')

/-- ASCII model of the regex class `\s` / `str.strip`'s whitespace set. -/
def isSpaceChar (c : Char) : Bool :=
  (c = ' ' ∨ c = '\t' ∨ c = '\n' ∨ c = '\x0b' ∨ c = '\x0c' ∨ c = '\r')

/-- Replace every whitespace-class character by a plain space (first half of
`re.sub(r'\s+', ' ', text)`). -/
def spacify (c : Char) : Char :=
  if isSpaceChar c then ' ' else c

/-- Collapse runs of spaces to a single space (second half of
`re.sub(r'\s+', ' ', text)`, applied after `spacify`). -/
def squeezeSp : Str → Str
  | [] => []
  | [c] => [c]
  | c1 :: c2 :: r =>
    if c1 = ' ' ∧ c2 = ' ' then squeezeSp (c2 :: r)
    else c1 :: squeezeSp (c2 :: r)

/-- Remove trailing whitespace-class characters. -/
def stripEnd : Str → Str
  | [] => []
  | c :: r =>
    match stripEnd r with
    | [] => if isSpaceChar c then [] else [c]
    | c' :: r' => c :: c' :: r'

/-- Python `str.strip()`: drop leading and trailing whitespace. -/
def pyStrip (s : Str) : Str :=
  stripEnd (s.dropWhile (fun c => isSpaceChar c))

/-- The common normalization chain of `clean.py:normalize_string` (and of
`clean_csv.py` / `clean_xlsx.py` after their NaN check): lowercase, NFKD
(identity on the ASCII model), delete characters outside `\w`/`\s`, collapse
whitespace runs to one space, strip. -/
def normChain (s : Str) : Str :=
  pyStrip (squeezeSp (List.map spacify
    (List.filter (fun c => isWordChar c || isSpaceChar c) (List.map pyLower s))))

/-- `clean.py:BibDeduplicator.normalize_string` on a string argument
(`if not text: return ""` is the empty-string test here; the `None`/NaN cases
are handled by `normalize_string_py` below). -/
def normalize_string (s : Str) : Str :=
  if s = [] then [] else normChain s

/-- A value read from a dict / pandas cell: a string, `None`, or a float NaN. -/
inductive PyVal where
  | str (s : Str)
  | pynone
  | nan
deriving DecidableEq

/-- Python `str(·)` on a `PyVal` (`str(float('nan')) == "nan"`). -/
def pyValStr : PyVal → Str
  | .str s => s
  | .pynone => 'N' :: 'o' :: 'n' :: 'e' :: []
  | .nan => 'n' :: 'a' :: 'n' :: []

/-- Python truthiness of a `PyVal`: `None` and `""` are falsy; any other
string and NaN are truthy. -/
def pyTruthy : PyVal → Bool
  | .str s => !s.isEmpty
  | .pynone => false
  | .nan => true

/-- `pd.isna`: true exactly on `None` and NaN. -/
def pdIsna : PyVal → Bool
  | .str _ => false
  | .pynone => true
  | .nan => true

/-- `clean.py:BibDeduplicator.normalize_string` on an arbitrary value.
`if not text: return ""` maps `None` and `""` to `""`; a NaN float is truthy,
so the code falls through to `text.lower()` and raises `AttributeError`,
modelled as `Except.error`. -/
def normalize_string_py : PyVal → Except Unit Str
  | .str s => .ok (normalize_string s)
  | .pynone => .ok []
  | .nan => .error ()

/-- Scanner for `str.split()`: `acc` is the reversed current token. -/
def splitWsAux : Str → Str → List Str
  | [], acc => if acc = [] then [] else [acc.reverse]
  | c :: r, acc =>
    if isSpaceChar c then
      if acc = [] then splitWsAux r [] else acc.reverse :: splitWsAux r []
    else splitWsAux r (c :: acc)

/-- Maximal whitespace-free tokens, Python's `str.split()`. -/
def splitWs (s : Str) : List Str :=
  splitWsAux s []

/-- Python `sep.join(parts)` for a one-character separator (keeps empty
parts). -/
def joinSep (sep : Char) : List Str → Str
  | [] => []
  | [s] => s
  | s :: s' :: r => s ++ sep :: joinSep sep (s' :: r)

/-- `clean_mf.py:Deduplicator.normalize_text` on a string argument: lowercase,
NFKD and removal of non-spacing marks (identities on the ASCII model), replace
characters outside `\w`/`\s` by a space, then `' '.join(text.split())`. -/
def normalize_text (s : Str) : Str :=
  joinSep ' ' (splitWs
    (List.map (fun c => if isWordChar c || isSpaceChar c then c else ' ')
      (List.map pyLower s)))

/-- `clean_mf.py:Deduplicator.normalize_text` on an arbitrary value: the
`pd.isna` guard maps `None` and NaN to `""`. -/
def normalize_text_py (v : PyVal) : Str :=
  if pdIsna v then [] else normalize_text (pyValStr v)

/-! ### `difflib.SequenceMatcher` (as used by `calculate_similarity`)

`SequenceMatcher(None, a, b).ratio()` is `2*M/T` where `T = len(a)+len(b)`
(`1.0` if `T == 0`) and `M` is the total size of the matching blocks.  The
blocks come from recursive calls to `find_longest_match`, which runs a
row-by-row dynamic program: for each `i` it builds `newj2len[j] =
j2len.get(j-1, 0) + 1` over the positions `j` of `a[i]` in `b` inside
`[blo, bhi)`, recording the first `(i, j)` at which a strictly larger size `k`
appears as `(besti, bestj, bestsize) = (i-k+1, j-k+1, k)`.  With
`isjunk=None` and `autojunk` inert (strings shorter than 200) the junk
post-processing loops do nothing.  The model mirrors this literally; `j2len`
is a total function that is `0` where the Python dict has no entry. -/

/-- Character of `s` at index `i` (indices are kept in range at every call). -/

def charAt (s : Str) (i : Nat) : Char :=
  s.getD i ' '

/-- One row `i` of `find_longest_match`'s dynamic program: fold over the
candidate columns `j` (ascending), with state
`(newj2len, besti, bestj, bestsize)`.  `f` is the previous row's `j2len`;
`k = f (j-1) + 1` (and `1` at `j = 0`, where Python reads `j2len[-1]` as
absent). -/
def flmRow (a b : Str) (i : Nat) (f : Nat → Nat) :
    List Nat → ((Nat → Nat) × Nat × Nat × Nat) → ((Nat → Nat) × Nat × Nat × Nat)
  | [], st => st
  | j :: js, (g, bi, bj, bs) =>
    if charAt b j = charAt a i then
      let k := if j = 0 then 1 else f (j - 1) + 1
      let g' : Nat → Nat := fun j' => if j' = j then k else g j'
      if bs < k then flmRow a b i f js (g', i + 1 - k, j + 1 - k, k)
      else flmRow a b i f js (g', bi, bj, bs)
    else flmRow a b i f js (g, bi, bj, bs)

/-- All rows of `find_longest_match`'s dynamic program; each row starts from
an empty `newj2len` and scans the columns `[blo, bhi)`. -/
def flmRows (a b : Str) (blo bhi : Nat) :
    List Nat → ((Nat → Nat) × Nat × Nat × Nat) → ((Nat → Nat) × Nat × Nat × Nat)
  | [], st => st
  | i :: is, (f, bi, bj, bs) =>
    flmRows a b blo bhi is
      (flmRow a b i f (List.range' blo (bhi - blo)) ((fun _ => 0), bi, bj, bs))

/-- `SequenceMatcher.find_longest_match(alo, ahi, blo, bhi)` (no junk):
returns `(besti, bestj, bestsize)`, initially `(alo, blo, 0)`. -/
def findLongestMatch (a b : Str) (alo ahi blo bhi : Nat) : Nat × Nat × Nat :=
  (flmRows a b blo bhi (List.range' alo (ahi - alo)) ((fun _ => 0), alo, blo, 0)).2

/-- Total matched size of `get_matching_blocks` over the window
`[alo, ahi) × [blo, bhi)`, fuel-structured.  Each recursive call strictly
decreases `(ahi - alo) + (bhi - blo)` (see `findLongestMatch_bounds` /
`matchTotalFuel_stable`), so with fuel `(ahi - alo) + (bhi - blo)` the fuel
never runs out and the function computes exactly difflib's sum of matching
block sizes. -/
def matchTotalFuel (a b : Str) : Nat → Nat → Nat → Nat → Nat → Nat
  | 0, _, _, _, _ => 0
  | fuel + 1, alo, ahi, blo, bhi =>
    let r := findLongestMatch a b alo ahi blo bhi
    let i := r.1
    let j := r.2.1
    let k := r.2.2
    if k = 0 then 0
    else matchTotalFuel a b fuel alo i blo j + k +
      matchTotalFuel a b fuel (i + k) ahi (j + k) bhi

/-- Entering row `i`, every nonzero entry `f j'` of the previous row's
`j2len` satisfies `f j' + alo ≤ i` and `f j' + blo ≤ j' + 1` (a run of `f j'`
matched characters fits inside the window above and to the left). -/
def RowInv (alo blo i : Nat) (f : Nat → Nat) : Prop :=
  ∀ j', f j' ≠ 0 → f j' + alo ≤ i ∧ f j' + blo ≤ j' + 1

/-- A nonempty best triple `(bi, bj, k)` denotes a block inside the window. -/
def BestInv (alo ahi blo bhi : Nat) (st : Nat × Nat × Nat) : Prop :=
  st.2.2 ≠ 0 →
    alo ≤ st.1 ∧ blo ≤ st.2.1 ∧ st.1 + st.2.2 ≤ ahi ∧ st.2.1 + st.2.2 ≤ bhi

/-- Sum of difflib's matching-block sizes for the full strings. -/
def matchTotal (a b : Str) : Nat :=
  matchTotalFuel a b (a.length + b.length) 0 a.length 0 b.length

/-- `clean.py:BibDeduplicator.calculate_similarity`:
`SequenceMatcher(None, str1, str2).ratio()`, i.e. `2*M/T`, and `1` when both
strings are empty (`_calculate_ratio`). -/
def calculate_similarity (s1 s2 : Str) : ℚ :=
  if s1.length + s2.length = 0 then 1
  else 2 * (matchTotal s1 s2 : ℚ) / ((s1.length : ℚ) + (s2.length : ℚ))

/-! ### `clean.py` / `clean_mf.py` entries and matching -/

/-- A bibliography entry, with the fields the matching logic reads.  A field
absent from the underlying dict is `none`; `title`/`author` are read with
`entry.get(key, '')` and `doi` with `entry.get('doi')`. -/

structure BibEntry where
  title : Option Str
  author : Option Str
  doi : Option Str
deriving DecidableEq

instance : Inhabited BibEntry := ⟨⟨none, none, none⟩⟩

/-- `entry.get('title', '')`. -/
def getTitle (e : BibEntry) : Str :=
  e.title.getD []

/-- `entry.get('author', '')`. -/
def getAuthor (e : BibEntry) : Str :=
  e.author.getD []

/-- `doi = entry.get('doi'); if doi:` — the DOI when present and truthy
(nonempty); `none` for a missing or empty DOI. -/
def truthyDoi (e : BibEntry) : Option Str :=
  match e.doi with
  | some s => if s = [] then none else some s
  | none => none

/-- `doi.lower().strip()` — the normalized exact-match key of `clean.py`. -/
def doiKey (s : Str) : Str :=
  pyStrip (List.map pyLower s)

/-- Decides `calculate_similarity s1 s2 > num / den` (for `den > 0`) by exact
integer cross-multiplication: the ratio is `2*M/T`, and `1` when `T = 0`.
Kernel-computable stand-in for the float comparison; `simGt_iff` proves it
equivalent to the rational comparison. -/
def simGt (s1 s2 : Str) (num den : Nat) : Bool :=
  if s1.length + s2.length = 0 then decide (num < den)
  else decide (num * (s1.length + s2.length) < 2 * matchTotal s1 s2 * den)

/-- `clean.py:BibDeduplicator.are_entries_similar`: title similarity over
normalized titles must strictly exceed `title_threshold`; only then are the
normalized authors compared against `author_threshold`.  The thresholds are
passed as exact fractions `tnum/tden`, `anum/aden` (defaults 95/100 and
8/10). -/
def are_entries_similar (e1 e2 : BibEntry) (tnum tden anum aden : Nat) : Bool :=
  let t1 := normalize_string (getTitle e1)
  let t2 := normalize_string (getTitle e2)
  if simGt t1 t2 tnum tden then
    let a1 := normalize_string (getAuthor e1)
    let a2 := normalize_string (getAuthor e2)
    simGt a1 a2 anum aden
  else false

/-- Dict lookup, modelled on an association list (keys are inserted at most
once, so the first match is the binding). -/
def alookup (k : Str) : List (Str × Nat) → Option Nat
  | [] => none
  | (k', v) :: rest => if k' = k then some v else alookup k rest

/-- `clean.py:BibDeduplicator.check_doi_duplicates`, entry-at-a-time over the
indices of the batch: `m` is `doi_map` (normalized key ↦ index of the first
entry seen with it), `ps` the emitted `(original, duplicate)` index pairs. -/
def doiGo (es : List BibEntry) :
    List Nat → List (Str × Nat) → List (Nat × Nat) → List (Nat × Nat)
  | [], _, ps => ps
  | i :: rest, m, ps =>
    match truthyDoi (es.getD i default) with
    | none => doiGo es rest m ps
    | some s =>
      match alookup (doiKey s) m with
      | some i0 => doiGo es rest m (ps ++ [(i0, i)])
      | none => doiGo es rest (m ++ [(doiKey s, i)]) ps

/-- Emitted `(original, duplicate)` index pairs of the DOI pass. -/
def check_doi_duplicates (es : List BibEntry) : List (Nat × Nat) :=
  doiGo es (List.range es.length) [] []

/-- Inner loop of the similarity pass of `clean.py:deduplicate_entries` for a
fixed `i`: scan `j` over `(i, n)`, skipping entries already in
`removed_entries`; a match appends `(i, j)` and thereby marks `j` removed.
`removed_entries` always equals the set of duplicate components of the pairs
emitted so far (the DOI pass adds exactly its duplicates, the similarity pass
adds `j` and the pair together), so membership is checked on `ps.map (·.2)`. -/
def fuzzyInner (es : List BibEntry) (i : Nat) :
    List Nat → List (Nat × Nat) → List (Nat × Nat)
  | [], ps => ps
  | j :: js, ps =>
    if j ∈ ps.map (fun p => p.2) then fuzzyInner es i js ps
    else if are_entries_similar (es.getD i default) (es.getD j default)
        95 100 8 10 then
      fuzzyInner es i js (ps ++ [(i, j)])
    else fuzzyInner es i js ps

/-- Outer loop of the similarity pass: `i` is skipped when already removed
(checked once, before the inner loop, as in the source). -/
def fuzzyOuter (es : List BibEntry) :
    List Nat → List (Nat × Nat) → List (Nat × Nat)
  | [], ps => ps
  | i :: rest, ps =>
    if i ∈ ps.map (fun p => p.2) then fuzzyOuter es rest ps
    else fuzzyOuter es rest
      (fuzzyInner es i (List.range' (i + 1) (es.length - (i + 1))) ps)

/-- All `(original, duplicate)` index pairs logged by
`clean.py:deduplicate_entries`: first the DOI pass over the whole batch, then
the title/author similarity pass over the survivors.  The pairs appear in
emission order (DOI pairs first). -/
def dedupPairs (es : List BibEntry) : List (Nat × Nat) :=
  fuzzyOuter es (List.range es.length) (check_doi_duplicates es)

/-- The indices in `removed_entries` at the end of the run. -/
def removedIdx (es : List BibEntry) : List Nat :=
  (dedupPairs es).map (fun p => p.2)

/-- Indices of the retained entries, in input order. -/
def uniqueIdx (es : List BibEntry) : List Nat :=
  (List.range es.length).filter (fun i => decide (i ∉ removedIdx es))

/-- `[entry for entry in all_entries if id(entry) not in removed_entries]`. -/
def unique_entries (es : List BibEntry) : List BibEntry :=
  (uniqueIdx es).map (fun i => es.getD i default)

/-! ### Invariants of the two passes -/

/-- Entry `i` carries the normalized exact-match key `key`. -/

def hasKey (es : List BibEntry) (i : Nat) (key : Str) : Prop :=
  ∃ s, truthyDoi (es.getD i default) = some s ∧ doiKey s = key

/-- Specification of one emitted DOI pair: the duplicate comes after the
original, both carry the same normalized key, and the original is the first
entry of the batch carrying it. -/
def DoiPairOk (es : List BibEntry) (p : Nat × Nat) : Prop :=
  p.1 < p.2 ∧ p.2 < es.length ∧
  ∃ key, hasKey es p.1 key ∧ hasKey es p.2 key ∧ ∀ i' < p.1, ¬ hasKey es i' key

/-- An entry recorded as a duplicate of some earlier-emitted pair is never the
original of a later-or-equally placed pair. -/
def NoReclaim (ps : List (Nat × Nat)) : Prop :=
  ∀ (k1 k2 : Nat) (p q : Nat × Nat),
    k1 ≤ k2 → ps[k1]? = some p → ps[k2]? = some q → p.2 ≠ q.1

/-! ### Shape lemmas for the normalization chain -/

/-- No two adjacent plain spaces. -/

def NoDbl : Str → Prop
  | c1 :: c2 :: r => ¬(c1 = ' ' ∧ c2 = ' ') ∧ NoDbl (c2 :: r)
  | _ => True

/-! ### `clean_csv.py` / `clean_xlsx.py` -/

/-- A spreadsheet row: column name ↦ cell value (`df.to_dict('records')` /
`df.iterrows()`). -/

abbrev Row := List (Str × PyVal)

/-- `col in row` / `row[col]` on the dict model. -/
def rlookup (k : Str) : Row → Option PyVal
  | [] => none
  | (k', v) :: rest => if k' = k then some v else rlookup k rest

/-- `clean_csv.py:CSVDeduplicator.normalize_string` (the same code appears in
`clean_xlsx.py`): `pd.isna` guard, `str(text)`, then the common chain. -/
def normalize_string_cell (v : PyVal) : Str :=
  if pdIsna v then [] else normChain (pyValStr v)

/-- One segment of `clean_csv.py:generate_comparison_key`: a present column
contributes `normalize_string(str(row[col]))` — `str(·)` is applied before
the NaN check inside `normalize_string`, so a NaN cell arrives as the string
`"nan"`; an absent column contributes `""`. -/
def csvSegment (row : Row) (col : Str) : Str :=
  match rlookup col row with
  | some v => normalize_string_cell (PyVal.str (pyValStr v))
  | none => []

/-- `clean_csv.py:generate_comparison_key`: `"_".join(key_parts)`. -/
def generate_comparison_key (cols : List Str) (row : Row) : Str :=
  joinSep '_' (cols.map (fun c => csvSegment row c))

/-- One segment of `clean_xlsx.py:generate_comparison_key`: the cell value is
passed to `normalize_string` unconverted, so the `pd.isna` guard maps a NaN
cell to `""`. -/
def xlsxSegment (row : Row) (col : Str) : Str :=
  match rlookup col row with
  | some v => normalize_string_cell v
  | none => []

/-- `clean_xlsx.py:generate_comparison_key`. -/
def generate_comparison_key_xlsx (cols : List Str) (row : Row) : Str :=
  joinSep '_' (cols.map (fun c => xlsxSegment row c))

/-- Append a row to its key's group (`py_.group_by` builds an
insertion-ordered dict, preserving in-group order). -/
def addToGroups (key : Str) (row : Row) :
    List (Str × List Row) → List (Str × List Row)
  | [] => [(key, [row])]
  | (k, g) :: rest =>
    if k = key then (k, g ++ [row]) :: rest
    else (k, g) :: addToGroups key row rest

/-- Group the batch's rows by comparison key. -/
def csvGroups (cols : List Str) : List Row → List (Str × List Row) →
    List (Str × List Row)
  | [], acc => acc
  | r :: rs, acc =>
    csvGroups cols rs (addToGroups (generate_comparison_key cols r) r acc)

/-- `clean_csv.py:deduplicate_entries` as a partition: per group (in
first-seen key order) the first row is retained; the remaining rows are
duplicates of it, in order. -/
def csvPartition (cols : List Str) (rows : List Row) :
    List Row × List (Row × Row) :=
  let gs := csvGroups cols rows []
  (gs.map (fun g => g.2.headI),
    (gs.map (fun g => (g.2.drop 1).map (fun d => (g.2.headI, d)))).flatten)

/-! ### `clean_mf.py` matching -/

/-- The DOI clause of `clean_mf.py:are_duplicates`: both DOIs present and
truthy, compared after `strip()` only — no lowercasing. -/

def mfDoiMatch (e1 e2 : BibEntry) : Bool :=
  match truthyDoi e1, truthyDoi e2 with
  | some d1, some d2 => decide (pyStrip d1 = pyStrip d2)
  | _, _ => false

/-- `clean_mf.py:Deduplicator.are_duplicates`: the DOI clause, then equality
of nonempty normalized titles. -/
def are_duplicates (e1 e2 : BibEntry) : Bool :=
  if mfDoiMatch e1 e2 then true
  else
    let t1 := normalize_text (getTitle e1)
    let t2 := normalize_text (getTitle e2)
    if t1 ≠ [] ∧ t2 ≠ [] ∧ t1 = t2 then true else false

/-! ### The claims -/

/-- C1: Partition completeness for `clean.py:deduplicate_entries` — the
retained entries plus the logged duplicates (one per emitted pair) cover the
input batch exactly: sizes add up to the batch size, both index lists are
duplicate-free, and every input index lands in exactly one side. -/

theorem char_ofNat_lower_toNat {n : Nat} (h1 : 65 ≤ n) (h2 : n ≤ 90) :
    (Char.ofNat (n + 32)).toNat = n + 32 := by
  interval_cases n <;> decide

theorem pyLower_pyLower (c : Char) : pyLower (pyLower c) = pyLower c := by
  unfold pyLower
  by_cases h : 65 ≤ c.toNat ∧ c.toNat ≤ 90
  · rw [if_pos h]
    have ht := char_ofNat_lower_toNat h.1 h.2
    rw [if_neg]
    omega
  · simp only [if_neg h]

theorem pyLower_eq_underscore {c : Char} (h : pyLower c = '_') : c = '_' := by
  unfold pyLower at h
  by_cases hc : 65 ≤ c.toNat ∧ c.toNat ≤ 90
  · rw [if_pos hc] at h
    have ht := char_ofNat_lower_toNat hc.1 hc.2
    have : (Char.ofNat (c.toNat + 32)).toNat = ('_' : Char).toNat := by rw [h]
    rw [ht] at this
    have h95 : ('_' : Char).toNat = 95 := by decide
    omega
  · rwa [if_neg hc] at h

theorem isWordChar_of_not_space_pyLower {c : Char}
    (hw : isWordChar c = true) : isSpaceChar c = false := by
  simp only [isWordChar, isSpaceChar, decide_eq_true_eq, decide_eq_false_iff_not] at *
  rcases hw with h | h | h | h <;>
    rintro (rfl | rfl | rfl | rfl | rfl | rfl) <;>
    revert h <;> decide

theorem flmRow_inv (a b : Str) (alo ahi blo bhi i : Nat) (f : Nat → Nat)
    (hi1 : alo ≤ i) (hi2 : i < ahi) (hf : RowInv alo blo i f) :
    ∀ (js : List Nat) (g : Nat → Nat) (bi bj bs : Nat),
      (∀ j ∈ js, blo ≤ j ∧ j < bhi) →
      RowInv alo blo (i + 1) g →
      BestInv alo ahi blo bhi (bi, bj, bs) →
      RowInv alo blo (i + 1) (flmRow a b i f js (g, bi, bj, bs)).1 ∧
        BestInv alo ahi blo bhi (flmRow a b i f js (g, bi, bj, bs)).2 := by
  intro js
  induction js with
  | nil => intro g bi bj bs _ hg hb; exact ⟨hg, hb⟩
  | cons j js ih =>
    intro g bi bj bs hjs hg hb
    have hj := hjs j (List.mem_cons_self j js)
    have hjs' : ∀ j' ∈ js, blo ≤ j' ∧ j' < bhi :=
      fun j' hj' => hjs j' (List.mem_cons_of_mem j hj')
    show RowInv alo blo (i + 1)
        (flmRow a b i f (j :: js) (g, bi, bj, bs)).1 ∧ _
    rw [flmRow]
    by_cases hc : charAt b j = charAt a i
    · rw [if_pos hc]
      have hk1 : (if j = 0 then 1 else f (j - 1) + 1) + alo ≤ i + 1 := by
        by_cases hj0 : j = 0
        · simp only [if_pos hj0]; omega
        · simp only [if_neg hj0]
          by_cases hfz : f (j - 1) = 0
          · rw [hfz]; omega
          · have := (hf (j - 1) hfz).1; omega
      have hk2 : (if j = 0 then 1 else f (j - 1) + 1) + blo ≤ j + 1 := by
        by_cases hj0 : j = 0
        · simp only [if_pos hj0]; omega
        · simp only [if_neg hj0]
          by_cases hfz : f (j - 1) = 0
          · rw [hfz]; omega
          · have := (hf (j - 1) hfz).2; omega
      have hg' : RowInv alo blo (i + 1)
          (fun j' => if j' = j then (if j = 0 then 1 else f (j - 1) + 1)
            else g j') := by
        intro j' hne
        by_cases hjj : j' = j
        · simp only [if_pos hjj] at hne ⊢
          subst hjj
          exact ⟨hk1, hk2⟩
        · simp only [if_neg hjj] at hne ⊢
          exact hg j' hne
      by_cases hlt : bs < (if j = 0 then 1 else f (j - 1) + 1)
      · rw [if_pos hlt]
        refine ih _ _ _ _ hjs' hg' ?_
        intro _
        dsimp only
        exact ⟨by omega, by omega, by omega, by omega⟩
      · rw [if_neg hlt]
        exact ih _ _ _ _ hjs' hg' hb
    · rw [if_neg hc]
      exact ih _ _ _ _ hjs' hg hb

theorem flmRows_inv (a b : Str) (alo ahi blo bhi : Nat) :
    ∀ (m r : Nat) (f : Nat → Nat) (bi bj bs : Nat),
      alo ≤ r → r + m ≤ ahi →
      RowInv alo blo r f →
      BestInv alo ahi blo bhi (bi, bj, bs) →
      BestInv alo ahi blo bhi
        (flmRows a b blo bhi (List.range' r m) (f, bi, bj, bs)).2 := by
  intro m
  induction m with
  | zero => intro r f bi bj bs _ _ _ hb; exact hb
  | succ m ih =>
    intro r f bi bj bs hr hm hf hb
    show BestInv alo ahi blo bhi
      (flmRows a b blo bhi (r :: List.range' (r + 1) m) (f, bi, bj, bs)).2
    rw [flmRows]
    have hrow := flmRow_inv a b alo ahi blo bhi r f hr (by omega) hf
      (List.range' blo (bhi - blo)) (fun _ => 0) bi bj bs
      (by
        intro j hj
        rw [List.mem_range'_1] at hj
        omega)
      (by intro j' h; exact absurd rfl h)
      hb
    obtain ⟨hg, hb'⟩ := hrow
    exact ih (r + 1)
      (flmRow a b r f (List.range' blo (bhi - blo)) ((fun _ => 0), bi, bj, bs)).1
      (flmRow a b r f (List.range' blo (bhi - blo)) ((fun _ => 0), bi, bj, bs)).2.1
      (flmRow a b r f (List.range' blo (bhi - blo)) ((fun _ => 0), bi, bj, bs)).2.2.1
      (flmRow a b r f (List.range' blo (bhi - blo)) ((fun _ => 0), bi, bj, bs)).2.2.2
      (by omega) (by omega) hg hb'

/-- A nonzero best block returned by `find_longest_match` lies inside the
requested window. -/
theorem findLongestMatch_bounds (a b : Str) (alo ahi blo bhi : Nat) :
    BestInv alo ahi blo bhi (findLongestMatch a b alo ahi blo bhi) := by
  unfold findLongestMatch
  by_cases h : alo ≤ ahi
  · exact flmRows_inv a b alo ahi blo bhi (ahi - alo) alo (fun _ => 0) alo blo 0
      (le_refl alo) (by omega)
      (by intro j' hj'; exact absurd rfl hj')
      (by intro h0; exact absurd rfl h0)
  · have hz : ahi - alo = 0 := by omega
    rw [hz]
    intro h0
    exact absurd rfl h0

/-- The fuelled block-sum does not depend on the fuel once the fuel covers
`(ahi - alo) + (bhi - blo)`: each recursive call strictly shrinks the window.
Hence `matchTotal` computes difflib's total with the fuel it supplies. -/
theorem matchTotalFuel_stable (a b : Str) :
    ∀ (n F1 F2 alo ahi blo bhi : Nat),
      (ahi - alo) + (bhi - blo) ≤ n →
      (ahi - alo) + (bhi - blo) ≤ F1 →
      (ahi - alo) + (bhi - blo) ≤ F2 →
      matchTotalFuel a b F1 alo ahi blo bhi =
        matchTotalFuel a b F2 alo ahi blo bhi := by
  intro n
  induction n with
  | zero =>
    intro F1 F2 alo ahi blo bhi hn _ _
    have hk : (findLongestMatch a b alo ahi blo bhi).2.2 = 0 := by
      by_contra hk0
      have := findLongestMatch_bounds a b alo ahi blo bhi hk0
      omega
    match F1, F2 with
    | 0, 0 => rfl
    | 0, F2 + 1 => rw [matchTotalFuel, matchTotalFuel, if_pos hk]
    | F1 + 1, 0 => rw [matchTotalFuel, matchTotalFuel, if_pos hk]
    | F1 + 1, F2 + 1 =>
      rw [matchTotalFuel, matchTotalFuel, if_pos hk, if_pos hk]
  | succ n ih =>
    intro F1 F2 alo ahi blo bhi hn h1 h2
    by_cases hk : (findLongestMatch a b alo ahi blo bhi).2.2 = 0
    · match F1, F2 with
      | 0, 0 => rfl
      | 0, F2 + 1 => rw [matchTotalFuel, matchTotalFuel, if_pos hk]
      | F1 + 1, 0 => rw [matchTotalFuel, matchTotalFuel, if_pos hk]
      | F1 + 1, F2 + 1 =>
        rw [matchTotalFuel, matchTotalFuel, if_pos hk, if_pos hk]
    · have hbd := findLongestMatch_bounds a b alo ahi blo bhi hk
      match F1, F2 with
      | 0, _ => omega
      | _ + 1, 0 => omega
      | F1 + 1, F2 + 1 =>
        rw [matchTotalFuel, matchTotalFuel, if_neg hk, if_neg hk]
        have hl := ih F1 F2 alo (findLongestMatch a b alo ahi blo bhi).1 blo
          (findLongestMatch a b alo ahi blo bhi).2.1
          (by omega) (by omega) (by omega)
        have hr := ih F1 F2
          ((findLongestMatch a b alo ahi blo bhi).1 +
            (findLongestMatch a b alo ahi blo bhi).2.2) ahi
          ((findLongestMatch a b alo ahi blo bhi).2.1 +
            (findLongestMatch a b alo ahi blo bhi).2.2) bhi
          (by omega) (by omega) (by omega)
        rw [hl, hr]

theorem flmRow_diag (a : Str) (r : Nat) (f : Nat → Nat)
    (hf1 : ∀ j', f j' ≤ r) (hf2 : ∀ j', f j' ≤ j' + 1)
    (hf3 : r = 0 ∨ f (r - 1) = r) :
    ∀ (m j0 : Nat) (g : Nat → Nat),
      j0 + m = a.length → r < a.length →
      (∀ j', g j' ≤ r + 1) → (∀ j', g j' ≤ j' + 1) →
      (r < j0 → g r = r + 1) →
      (flmRow a a r f (List.range' j0 m)
          (g, 0, 0, if j0 ≤ r then r else r + 1)).2 = (0, 0, r + 1) ∧
      (∀ j', (flmRow a a r f (List.range' j0 m)
          (g, 0, 0, if j0 ≤ r then r else r + 1)).1 j' ≤ r + 1) ∧
      (∀ j', (flmRow a a r f (List.range' j0 m)
          (g, 0, 0, if j0 ≤ r then r else r + 1)).1 j' ≤ j' + 1) ∧
      (flmRow a a r f (List.range' j0 m)
          (g, 0, 0, if j0 ≤ r then r else r + 1)).1 r = r + 1 := by
  intro m
  induction m with
  | zero =>
    intro j0 g hj0 hrn hg1 hg2 hgr
    have hj0r : r < j0 := by omega
    rw [if_neg (by omega)]
    exact ⟨rfl, hg1, hg2, hgr hj0r⟩
  | succ m ih =>
    intro j0 g hj0 hrn hg1 hg2 hgr
    rw [List.range'_succ, flmRow]
    by_cases hjr : j0 = r
    · subst hjr
      rw [if_pos rfl, if_pos (le_refl j0)]
      have hk : (if j0 = 0 then 1 else f (j0 - 1) + 1) = j0 + 1 := by
        rcases hf3 with h0 | hd
        · rw [if_pos h0, h0]
        · by_cases h0 : j0 = 0
          · rw [if_pos h0, h0]
          · rw [if_neg h0, hd]
      rw [hk, if_pos (by omega)]
      have hsub : j0 + 1 - (j0 + 1) = 0 := by omega
      rw [hsub]
      have hres := ih (j0 + 1)
        (fun j' => if j' = j0 then j0 + 1 else g j') (by omega) hrn
        (by
          intro j'
          dsimp only
          by_cases h : j' = j0
          · rw [if_pos h]
          · rw [if_neg h]; exact hg1 j')
        (by
          intro j'
          dsimp only
          by_cases h : j' = j0
          · rw [if_pos h, h]
          · rw [if_neg h]; exact hg2 j')
        (by intro _; dsimp only; rw [if_pos rfl])
      rwa [if_neg (show ¬j0 + 1 ≤ j0 by omega)] at hres
    · have hkle1 : (if j0 = 0 then 1 else f (j0 - 1) + 1) ≤ r + 1 := by
        by_cases h0 : j0 = 0
        · rw [if_pos h0]; omega
        · rw [if_neg h0]
          have := hf1 (j0 - 1)
          omega
      have hkle2 : (if j0 = 0 then 1 else f (j0 - 1) + 1) ≤ j0 + 1 := by
        by_cases h0 : j0 = 0
        · rw [if_pos h0]; omega
        · rw [if_neg h0]
          have := hf2 (j0 - 1)
          omega
      have hgup1 : ∀ j', (fun j' => if j' = j0
          then (if j0 = 0 then 1 else f (j0 - 1) + 1) else g j') j' ≤ r + 1 := by
        intro j'
        dsimp only
        by_cases h : j' = j0
        · rw [if_pos h]; exact hkle1
        · rw [if_neg h]; exact hg1 j'
      have hgup2 : ∀ j', (fun j' => if j' = j0
          then (if j0 = 0 then 1 else f (j0 - 1) + 1) else g j') j' ≤ j' + 1 := by
        intro j'
        dsimp only
        by_cases h : j' = j0
        · rw [if_pos h, h]; exact hkle2
        · rw [if_neg h]; exact hg2 j'
      have hgupr : r < j0 + 1 → (fun j' => if j' = j0
          then (if j0 = 0 then 1 else f (j0 - 1) + 1) else g j') r = r + 1 := by
        intro hlt
        have hrj : r < j0 := by omega
        dsimp only
        rw [if_neg (by omega : ¬r = j0)]
        exact hgr hrj
      by_cases hc : charAt a j0 = charAt a r
      · rw [if_pos hc]
        by_cases hord : j0 ≤ r
        · rw [if_pos hord, if_neg (show ¬r < (if j0 = 0 then 1
            else f (j0 - 1) + 1) by omega)]
          have hres := ih (j0 + 1) (fun j' => if j' = j0
              then (if j0 = 0 then 1 else f (j0 - 1) + 1) else g j')
            (by omega) hrn hgup1 hgup2 hgupr
          rwa [if_pos (show j0 + 1 ≤ r by omega)] at hres
        · rw [if_neg hord, if_neg (show ¬r + 1 < (if j0 = 0 then 1
            else f (j0 - 1) + 1) by omega)]
          have hres := ih (j0 + 1) (fun j' => if j' = j0
              then (if j0 = 0 then 1 else f (j0 - 1) + 1) else g j')
            (by omega) hrn hgup1 hgup2 hgupr
          rwa [if_neg (show ¬j0 + 1 ≤ r by omega)] at hres
      · rw [if_neg hc]
        by_cases hord : j0 ≤ r
        · rw [if_pos hord]
          have hres := ih (j0 + 1) g (by omega) hrn hg1 hg2 (by intro h; omega)
          rwa [if_pos (show j0 + 1 ≤ r by omega)] at hres
        · rw [if_neg hord]
          have hres := ih (j0 + 1) g (by omega) hrn hg1 hg2
            (by intro _; exact hgr (by omega))
          rwa [if_neg (show ¬j0 + 1 ≤ r by omega)] at hres

theorem flmRows_diag (a : Str) :
    ∀ (m r : Nat) (f : Nat → Nat),
      r + m = a.length →
      (∀ j', f j' ≤ r) → (∀ j', f j' ≤ j' + 1) →
      (r = 0 ∨ f (r - 1) = r) →
      (flmRows a a 0 a.length (List.range' r m) (f, 0, 0, r)).2 =
        (0, 0, a.length) := by
  intro m
  induction m with
  | zero =>
    intro r f hr _ _ _
    have hrl : r = a.length := by omega
    rw [hrl]
    rfl
  | succ m ih =>
    intro r f hr hf1 hf2 hf3
    rw [List.range'_succ, flmRows]
    have hrow := flmRow_diag a r f hf1 hf2 hf3 (a.length - 0) 0 (fun _ => 0)
      (by omega) (by omega)
      (fun j' => Nat.zero_le _) (fun j' => Nat.zero_le _) (by intro h; omega)
    rw [if_pos (by omega : (0:Nat) ≤ r)] at hrow
    obtain ⟨hbest, hb1, hb2, hbr⟩ := hrow
    have heq : (flmRow a a r f (List.range' 0 (a.length - 0))
        ((fun _ => 0), 0, 0, r)) =
        ((flmRow a a r f (List.range' 0 (a.length - 0))
          ((fun _ => 0), 0, 0, r)).1, 0, 0, r + 1) := by
      rw [← hbest]
    rw [heq]
    exact ih (r + 1) _ (by omega) hb1 hb2 (Or.inr hbr)

/-- On a string against itself, `find_longest_match` over the full window
returns the whole string as the block. -/
theorem findLongestMatch_diag (a : Str) :
    findLongestMatch a a 0 a.length 0 a.length = (0, 0, a.length) := by
  unfold findLongestMatch
  exact flmRows_diag a (a.length - 0) 0 (fun _ => 0) (by omega)
    (fun j' => Nat.zero_le _) (fun j' => Nat.zero_le _) (Or.inl rfl)

theorem matchTotalFuel_degenerate (a b : Str) :
    ∀ (F alo ahi blo bhi : Nat), ahi ≤ alo ∨ bhi ≤ blo →
      matchTotalFuel a b F alo ahi blo bhi = 0 := by
  intro F alo ahi blo bhi h
  match F with
  | 0 => rfl
  | F + 1 =>
    rw [matchTotalFuel]
    have hk : (findLongestMatch a b alo ahi blo bhi).2.2 = 0 := by
      by_contra hk0
      have := findLongestMatch_bounds a b alo ahi blo bhi hk0
      omega
    rw [if_pos hk]

/-- `M = len(a)` when comparing a string with itself. -/
theorem matchTotal_self (a : Str) : matchTotal a a = a.length := by
  unfold matchTotal
  by_cases h0 : a.length = 0
  · rw [h0]; rfl
  · obtain ⟨F, hF⟩ : ∃ F, a.length + a.length = F + 1 :=
      ⟨a.length + a.length - 1, by omega⟩
    rw [hF, matchTotalFuel, findLongestMatch_diag a]
    dsimp only
    rw [if_neg h0]
    rw [matchTotalFuel_degenerate a a F 0 0 0 0
        (show (0:Nat) ≤ 0 ∨ (0:Nat) ≤ 0 from Or.inl (le_refl 0)),
      matchTotalFuel_degenerate a a F (0 + a.length) a.length (0 + a.length)
        a.length (show a.length ≤ 0 + a.length ∨ a.length ≤ 0 + a.length from
          Or.inl (by omega))]
    omega

theorem simGt_iff (s1 s2 : Str) (num den : Nat) (hden : 0 < den) :
    simGt s1 s2 num den = true ↔
      calculate_similarity s1 s2 > (num : ℚ) / (den : ℚ) := by
  unfold simGt calculate_similarity
  by_cases hT : s1.length + s2.length = 0
  · rw [if_pos hT, if_pos hT]
    rw [decide_eq_true_iff]
    rw [gt_iff_lt, div_lt_one (by exact_mod_cast hden)]
    exact_mod_cast Iff.rfl
  · rw [if_neg hT, if_neg hT]
    rw [decide_eq_true_iff]
    have hT' : (0 : ℚ) < (s1.length : ℚ) + (s2.length : ℚ) := by
      have : 0 < s1.length + s2.length := Nat.pos_of_ne_zero hT
      exact_mod_cast this
    rw [gt_iff_lt, div_lt_div_iff₀ (by exact_mod_cast hden) hT']
    constructor
    · intro h
      exact_mod_cast h
    · intro h
      exact_mod_cast h

theorem noReclaim_nil : NoReclaim [] := by
  intro k1 k2 p q _ hp _
  simp at hp

theorem noReclaim_snoc {ps : List (Nat × Nat)} {p : Nat × Nat}
    (h : NoReclaim ps) (h1 : ∀ q ∈ ps, q.2 ≠ p.1) (h2 : p.2 ≠ p.1) :
    NoReclaim (ps ++ [p]) := by
  intro k1 k2 q1 q2 hle hk1 hk2
  have hlen := List.getElem?_eq_some_iff.mp hk1
  have hlen2 := List.getElem?_eq_some_iff.mp hk2
  obtain ⟨hb1, _⟩ := hlen
  obtain ⟨hb2, _⟩ := hlen2
  rw [List.length_append, List.length_singleton] at hb1 hb2
  by_cases hc2 : k2 < ps.length
  · have hc1 : k1 < ps.length := by omega
    rw [List.getElem?_append_left hc1] at hk1
    rw [List.getElem?_append_left hc2] at hk2
    exact h k1 k2 q1 q2 hle hk1 hk2
  · have hk2e : k2 = ps.length := by omega
    rw [hk2e, List.getElem?_concat_length] at hk2
    have hq2 : q2 = p := Option.some.inj hk2.symm
    by_cases hc1 : k1 < ps.length
    · rw [List.getElem?_append_left hc1] at hk1
      have hmem : q1 ∈ ps := by
        obtain ⟨hlt, heq⟩ := List.getElem?_eq_some_iff.mp hk1
        rw [← heq]
        exact List.getElem_mem hlt
      rw [hq2]
      exact h1 q1 hmem
    · have hk1e : k1 = ps.length := by omega
      rw [hk1e, List.getElem?_concat_length] at hk1
      have hq1 : q1 = p := Option.some.inj hk1.symm
      rw [hq1, hq2]
      exact h2

theorem nodup_map_snd_snoc {ps : List (Nat × Nat)} {p : Nat × Nat}
    (h : (ps.map (fun q => q.2)).Nodup) (hn : p.2 ∉ ps.map (fun q => q.2)) :
    ((ps ++ [p]).map (fun q => q.2)).Nodup := by
  rw [List.map_append]
  rw [List.nodup_append]
  refine ⟨h, List.nodup_singleton _, ?_⟩
  intro x hx hx'
  simp only [List.map_cons, List.map_nil, List.mem_singleton] at hx'
  subst hx'
  exact hn hx

theorem alookup_mem {k : Str} {v : Nat} :
    ∀ {m : List (Str × Nat)}, alookup k m = some v → (k, v) ∈ m := by
  intro m
  induction m with
  | nil => intro h; simp [alookup] at h
  | cons b m ih =>
    obtain ⟨k', v'⟩ := b
    intro h
    rw [alookup] at h
    by_cases hb : k' = k
    · rw [if_pos hb] at h
      have hv : v' = v := Option.some.inj h
      rw [← hb, ← hv]
      exact List.mem_cons_self _ _
    · rw [if_neg hb] at h
      exact List.mem_cons_of_mem _ (ih h)

theorem alookup_append_some {k : Str} {l : List (Str × Nat)} {v : Nat} :
    ∀ {m : List (Str × Nat)},
      alookup k m = some v → alookup k (m ++ l) = some v := by
  intro m
  induction m with
  | nil => intro h; simp [alookup] at h
  | cons b m ih =>
    obtain ⟨k', v'⟩ := b
    intro h
    rw [alookup] at h
    rw [List.cons_append, alookup]
    by_cases hb : k' = k
    · rwa [if_pos hb] at h ⊢
    · rw [if_neg hb] at h ⊢
      exact ih h

theorem alookup_append_new {k : Str} {v : Nat} :
    ∀ {m : List (Str × Nat)},
      alookup k m = none → alookup k (m ++ [(k, v)]) = some v := by
  intro m
  induction m with
  | nil => intro _; simp [alookup]
  | cons b m ih =>
    obtain ⟨k', v'⟩ := b
    intro h
    rw [alookup] at h
    rw [List.cons_append, alookup]
    by_cases hb : k' = k
    · rw [if_pos hb] at h
      exact absurd h (by simp)
    · rw [if_neg hb] at h ⊢
      exact ih h

/-- Master invariant of the DOI pass.  Processing the indices `[c, c+k)`:
`m` binds each key to the first entry of the batch carrying it (all below
`c`), every key carried by an entry below `c` is bound, no map value is
recorded as a duplicate, and the emitted pairs satisfy the duplicate-side
invariants. -/
theorem doiGo_inv (es : List BibEntry) :
    ∀ (k c : Nat) (m : List (Str × Nat)) (ps : List (Nat × Nat)),
      c + k = es.length →
      (∀ b ∈ m, b.2 < c ∧ hasKey es b.2 b.1 ∧ ∀ i' < b.2, ¬ hasKey es i' b.1) →
      (∀ i' key, i' < c → hasKey es i' key → ∃ v, alookup key m = some v) →
      (∀ b ∈ m, b.2 ∉ ps.map (fun p => p.2)) →
      (ps.map (fun p => p.2)).Nodup →
      (∀ p ∈ ps, p.2 < c) →
      NoReclaim ps →
      (∀ p ∈ ps, DoiPairOk es p) →
      ((doiGo es (List.range' c k) m ps).map (fun p => p.2)).Nodup ∧
      (∀ p ∈ doiGo es (List.range' c k) m ps, p.2 < es.length) ∧
      NoReclaim (doiGo es (List.range' c k) m ps) ∧
      (∀ p ∈ doiGo es (List.range' c k) m ps, DoiPairOk es p) := by
  intro k
  induction k with
  | zero =>
    intro c m ps hc _ _ _ hnd hlt hnr hok
    exact ⟨hnd, fun p hp => by have := hlt p hp; omega, hnr, hok⟩
  | succ k ih =>
    intro c m ps hc hm hcomp hmp hnd hlt hnr hok
    rw [List.range'_succ]
    show ((doiGo es (c :: List.range' (c + 1) k) m ps).map _).Nodup ∧ _
    rw [doiGo]
    cases hdoi : truthyDoi (es.getD c default) with
    | none =>
      dsimp only
      refine ih (c + 1) m ps (by omega)
        (fun b hb => ⟨by have := (hm b hb).1; omega, (hm b hb).2.1, (hm b hb).2.2⟩)
        ?_ hmp hnd (fun p hp => by have := hlt p hp; omega) hnr hok
      intro i' key hi' hkey
      by_cases hic : i' < c
      · exact hcomp i' key hic hkey
      · have : i' = c := by omega
        subst this
        obtain ⟨s, hs, _⟩ := hkey
        rw [hdoi] at hs
        exact absurd hs (by simp)
    | some s =>
      dsimp only
      cases hlu : alookup (doiKey s) m with
      | some i0 =>
        dsimp only
        have hb0 : (doiKey s, i0) ∈ m := alookup_mem hlu
        have hm0 := hm _ hb0
        refine ih (c + 1) m (ps ++ [(i0, c)]) (by omega)
          (fun b hb => ⟨by have := (hm b hb).1; omega, (hm b hb).2.1,
            (hm b hb).2.2⟩)
          ?_ ?_ ?_ ?_ ?_ ?_
        · intro i' key hi' hkey
          by_cases hic : i' < c
          · exact hcomp i' key hic hkey
          · obtain ⟨s', hs', hks'⟩ := hkey
            rw [show i' = c by omega, hdoi] at hs'
            have hss : s' = s := (Option.some.inj hs').symm
            rw [← hks', hss]
            exact ⟨i0, hlu⟩
        · intro b hb
          rw [List.map_append]
          intro hmem
          rcases List.mem_append.mp hmem with hmem | hmem
          · exact hmp b hb hmem
          · simp only [List.map_cons, List.map_nil, List.mem_singleton] at hmem
            have := (hm b hb).1
            omega
        · refine nodup_map_snd_snoc hnd ?_
          intro hmem
          rcases List.mem_map.mp hmem with ⟨p, hp, hp2⟩
          have := hlt p hp
          omega
        · intro p hp
          rcases List.mem_append.mp hp with hp | hp
          · have := hlt p hp; omega
          · rw [List.mem_singleton] at hp
            subst hp
            omega
        · refine noReclaim_snoc hnr ?_ ?_
          · intro q hq
            have := hmp _ hb0
            intro hqe
            exact this (List.mem_map.mpr ⟨q, hq, hqe⟩)
          · have := hm0.1
            simp only []
            omega
        · intro p hp
          rcases List.mem_append.mp hp with hp | hp
          · exact hok p hp
          · rw [List.mem_singleton] at hp
            subst hp
            refine ⟨by have := hm0.1; omega, by omega,
              doiKey s, hm0.2.1, ⟨s, hdoi, rfl⟩, hm0.2.2⟩
      | none =>
        dsimp only
        refine ih (c + 1) (m ++ [(doiKey s, c)]) ps (by omega) ?_ ?_ ?_ hnd
          (fun p hp => by have := hlt p hp; omega) hnr hok
        · intro b hb
          rcases List.mem_append.mp hb with hb | hb
          · exact ⟨by have := (hm b hb).1; omega, (hm b hb).2.1, (hm b hb).2.2⟩
          · rw [List.mem_singleton] at hb
            subst hb
            refine ⟨by omega, ⟨s, hdoi, rfl⟩, ?_⟩
            intro i' hi' hkey
            obtain ⟨v, hv⟩ := hcomp i' (doiKey s) hi' hkey
            rw [hv] at hlu
            exact absurd hlu (by simp)
        · intro i' key hi' hkey
          by_cases hic : i' < c
          · obtain ⟨v, hv⟩ := hcomp i' key hic hkey
            exact ⟨v, alookup_append_some hv⟩
          · obtain ⟨s', hs', hks'⟩ := hkey
            rw [show i' = c by omega, hdoi] at hs'
            have hss : s' = s := (Option.some.inj hs').symm
            rw [← hks', hss]
            exact ⟨c, alookup_append_new hlu⟩
        · intro b hb
          rcases List.mem_append.mp hb with hb | hb
          · exact hmp b hb
          · rw [List.mem_singleton] at hb
            subst hb
            intro hmem
            rcases List.mem_map.mp hmem with ⟨p, hp, hp2⟩
            have := hlt p hp
            simp only [] at hp2
            omega

/-- The DOI-pass invariants for `check_doi_duplicates`. -/
theorem check_doi_duplicates_inv (es : List BibEntry) :
    ((check_doi_duplicates es).map (fun p => p.2)).Nodup ∧
    (∀ p ∈ check_doi_duplicates es, p.2 < es.length) ∧
    NoReclaim (check_doi_duplicates es) ∧
    (∀ p ∈ check_doi_duplicates es, DoiPairOk es p) := by
  unfold check_doi_duplicates
  rw [List.range_eq_range']
  exact doiGo_inv es es.length 0 [] [] (by omega)
    (by intro b hb; simp at hb)
    (by intro i' key hi' _; omega)
    (by intro b hb; simp at hb)
    List.nodup_nil
    (by intro p hp; simp at hp)
    noReclaim_nil
    (by intro p hp; simp at hp)

/-- Invariants of the inner similarity loop: duplicates stay distinct and in
range, `NoReclaim` is preserved, and the fixed `i` never becomes a
duplicate. -/
theorem fuzzyInner_inv (es : List BibEntry) (i : Nat) :
    ∀ (js : List Nat) (ps : List (Nat × Nat)),
      (∀ j ∈ js, i < j ∧ j < es.length) →
      i ∉ ps.map (fun p => p.2) →
      (ps.map (fun p => p.2)).Nodup →
      (∀ p ∈ ps, p.2 < es.length) →
      NoReclaim ps →
      i ∉ (fuzzyInner es i js ps).map (fun p => p.2) ∧
      ((fuzzyInner es i js ps).map (fun p => p.2)).Nodup ∧
      (∀ p ∈ fuzzyInner es i js ps, p.2 < es.length) ∧
      NoReclaim (fuzzyInner es i js ps) := by
  intro js
  induction js with
  | nil => intro ps _ hi hnd hlt hnr; exact ⟨hi, hnd, hlt, hnr⟩
  | cons j js ih =>
    intro ps hjs hi hnd hlt hnr
    have hj := hjs j (List.mem_cons_self j js)
    have hjs' : ∀ j' ∈ js, i < j' ∧ j' < es.length :=
      fun j' hj' => hjs j' (List.mem_cons_of_mem j hj')
    rw [fuzzyInner]
    by_cases hmem : j ∈ ps.map (fun p => p.2)
    · rw [if_pos hmem]
      exact ih ps hjs' hi hnd hlt hnr
    · rw [if_neg hmem]
      by_cases hsim : are_entries_similar (es.getD i default)
          (es.getD j default) 95 100 8 10 = true
      · rw [if_pos hsim]
        refine ih (ps ++ [(i, j)]) hjs' ?_ ?_ ?_ ?_
        · rw [List.map_append]
          intro hmem'
          rcases List.mem_append.mp hmem' with h | h
          · exact hi h
          · simp only [List.map_cons, List.map_nil, List.mem_singleton] at h
            omega
        · exact nodup_map_snd_snoc hnd hmem
        · intro p hp
          rcases List.mem_append.mp hp with hp | hp
          · exact hlt p hp
          · rw [List.mem_singleton] at hp
            subst hp
            exact hj.2
        · refine noReclaim_snoc hnr ?_ ?_
          · intro q hq hqe
            exact hi (List.mem_map.mpr ⟨q, hq, hqe⟩)
          · simp only []
            omega
      · rw [if_neg hsim]
        exact ih ps hjs' hi hnd hlt hnr

/-- Invariants of the outer similarity loop. -/
theorem fuzzyOuter_inv (es : List BibEntry) :
    ∀ (l : List Nat) (ps : List (Nat × Nat)),
      (∀ i ∈ l, i < es.length) →
      (ps.map (fun p => p.2)).Nodup →
      (∀ p ∈ ps, p.2 < es.length) →
      NoReclaim ps →
      ((fuzzyOuter es l ps).map (fun p => p.2)).Nodup ∧
      (∀ p ∈ fuzzyOuter es l ps, p.2 < es.length) ∧
      NoReclaim (fuzzyOuter es l ps) := by
  intro l
  induction l with
  | nil => intro ps _ hnd hlt hnr; exact ⟨hnd, hlt, hnr⟩
  | cons i l ih =>
    intro ps hl hnd hlt hnr
    have hl' : ∀ i' ∈ l, i' < es.length :=
      fun i' hi' => hl i' (List.mem_cons_of_mem i hi')
    rw [fuzzyOuter]
    by_cases hmem : i ∈ ps.map (fun p => p.2)
    · rw [if_pos hmem]
      exact ih ps hl' hnd hlt hnr
    · rw [if_neg hmem]
      have hin := fuzzyInner_inv es i
        (List.range' (i + 1) (es.length - (i + 1))) ps
        (by
          intro j hjm
          rw [List.mem_range'_1] at hjm
          omega)
        hmem hnd hlt hnr
      exact ih _ hl' hin.2.1 hin.2.2.1 hin.2.2.2

/-- The whole-run invariants of `clean.py:deduplicate_entries`: no entry is
recorded as a duplicate twice, every duplicate index is in range, and an entry
recorded as a duplicate never originates a later pair. -/
theorem dedupPairs_inv (es : List BibEntry) :
    ((dedupPairs es).map (fun p => p.2)).Nodup ∧
    (∀ p ∈ dedupPairs es, p.2 < es.length) ∧
    NoReclaim (dedupPairs es) := by
  obtain ⟨hnd, hlt, hnr, _⟩ := check_doi_duplicates_inv es
  unfold dedupPairs
  exact fuzzyOuter_inv es (List.range es.length) (check_doi_duplicates es)
    (fun i hi => List.mem_range.mp hi) hnd hlt hnr

theorem noDbl_tail {c : Char} {s : Str} (h : NoDbl (c :: s)) : NoDbl s := by
  cases s with
  | nil => trivial
  | cons c2 r => exact h.2

theorem mem_squeezeSp {c : Char} : ∀ {s : Str}, c ∈ squeezeSp s → c ∈ s := by
  intro s
  induction s with
  | nil => intro h; exact h
  | cons c1 r ih =>
    cases r with
    | nil => intro h; exact h
    | cons c2 r2 =>
      rw [squeezeSp]
      by_cases hsp : c1 = ' ' ∧ c2 = ' '
      · rw [if_pos hsp]
        intro h
        exact List.mem_cons_of_mem _ (ih h)
      · rw [if_neg hsp]
        intro h
        rcases List.mem_cons.mp h with h | h
        · rw [h]; exact List.mem_cons_self _ _
        · exact List.mem_cons_of_mem _ (ih h)

theorem squeezeSp_cons_head : ∀ (c : Char) (r : Str),
    ∃ t, squeezeSp (c :: r) = c :: t := by
  intro c r
  induction r generalizing c with
  | nil => exact ⟨[], rfl⟩
  | cons c2 r2 ih =>
    rw [squeezeSp]
    by_cases hsp : c = ' ' ∧ c2 = ' '
    · rw [if_pos hsp]
      obtain ⟨t, ht⟩ := ih c2
      rw [ht, hsp.1, hsp.2] at *
      exact ⟨t, ht⟩
    · rw [if_neg hsp]
      exact ⟨squeezeSp (c2 :: r2), rfl⟩

theorem noDbl_squeezeSp : ∀ (s : Str), NoDbl (squeezeSp s) := by
  intro s
  induction s with
  | nil => trivial
  | cons c1 r ih =>
    cases r with
    | nil => trivial
    | cons c2 r2 =>
      rw [squeezeSp]
      by_cases hsp : c1 = ' ' ∧ c2 = ' '
      · rw [if_pos hsp]
        exact ih
      · rw [if_neg hsp]
        obtain ⟨t, ht⟩ := squeezeSp_cons_head c2 r2
        rw [ht]
        rw [ht] at ih
        exact ⟨fun hc => hsp ⟨hc.1, hc.2⟩, ih⟩

theorem squeezeSp_eq_self : ∀ {s : Str}, NoDbl s → squeezeSp s = s := by
  intro s
  induction s with
  | nil => intro _; rfl
  | cons c1 r ih =>
    cases r with
    | nil => intro _; rfl
    | cons c2 r2 =>
      intro h
      rw [squeezeSp, if_neg h.1, ih h.2]

theorem mem_stripEnd {c : Char} : ∀ {s : Str}, c ∈ stripEnd s → c ∈ s := by
  intro s
  induction s with
  | nil => intro h; exact h
  | cons c1 r ih =>
    rw [stripEnd]
    cases hr : stripEnd r with
    | nil =>
      by_cases hsp : isSpaceChar c1
      · rw [if_pos hsp]
        intro h
        exact absurd h (List.not_mem_nil c)
      · rw [if_neg hsp]
        intro h
        rw [List.mem_singleton] at h
        rw [h]
        exact List.mem_cons_self _ _
    | cons c' r' =>
      intro h
      rcases List.mem_cons.mp h with h | h
      · rw [h]; exact List.mem_cons_self _ _
      · refine List.mem_cons_of_mem _ (ih ?_)
        rw [hr]
        exact h

theorem stripEnd_cons_shape (c : Char) (r : Str) :
    stripEnd (c :: r) = [] ∨ ∃ t, stripEnd (c :: r) = c :: t := by
  rw [stripEnd]
  cases stripEnd r with
  | nil =>
    by_cases hsp : isSpaceChar c
    · rw [if_pos hsp]; exact Or.inl rfl
    · rw [if_neg hsp]; exact Or.inr ⟨[], rfl⟩
  | cons c' r' => exact Or.inr ⟨c' :: r', rfl⟩

theorem stripEnd_last_not_space {c : Char} :
    ∀ {s : Str}, (stripEnd s).getLast? = some c → isSpaceChar c = false := by
  intro s
  induction s with
  | nil => intro h; simp [stripEnd] at h
  | cons c1 r ih =>
    rw [stripEnd]
    cases hr : stripEnd r with
    | nil =>
      by_cases hsp : isSpaceChar c1
      · rw [if_pos hsp]
        intro h
        simp at h
      · rw [if_neg hsp]
        intro h
        simp only [List.getLast?_singleton] at h
        rw [← Option.some.inj h]
        exact Bool.eq_false_iff.mpr hsp
    | cons c' r' =>
      intro h
      rw [List.getLast?_cons_cons] at h
      refine ih ?_
      rw [hr]
      exact h

theorem stripEnd_eq_self :
    ∀ {s : Str}, (∀ c, s.getLast? = some c → isSpaceChar c = false) →
      stripEnd s = s := by
  intro s
  induction s with
  | nil => intro _; rfl
  | cons c1 r ih =>
    intro h
    rw [stripEnd]
    cases r with
    | nil =>
      have hc := h c1 rfl
      rw [show stripEnd [] = ([] : Str) from rfl, if_neg (by rw [hc]; simp)]
    | cons c2 r2 =>
      have hr : stripEnd (c2 :: r2) = c2 :: r2 := by
        refine ih ?_
        intro c hc
        refine h c ?_
        rw [List.getLast?_cons_cons]
        exact hc
      rw [hr]

theorem noDbl_stripEnd : ∀ {s : Str}, NoDbl s → NoDbl (stripEnd s) := by
  intro s
  induction s with
  | nil => intro _; trivial
  | cons c1 r ih =>
    intro h
    rw [stripEnd]
    cases hr : stripEnd r with
    | nil =>
      by_cases hsp : isSpaceChar c1
      · rw [if_pos hsp]; trivial
      · rw [if_neg hsp]; trivial
    | cons c' r' =>
      have hnd : NoDbl (c' :: r') := by
        rw [← hr]
        exact ih (noDbl_tail h)
      refine ⟨?_, hnd⟩
      rintro ⟨hc1, hc'⟩
      cases r with
      | nil => simp [stripEnd] at hr
      | cons c2 r2 =>
        rcases stripEnd_cons_shape c2 r2 with hsh | ⟨t, hsh⟩
        · rw [hsh] at hr; exact absurd hr (by simp)
        · rw [hsh] at hr
          have hc2 : c2 = c' := (List.cons.injEq _ _ _ _ ▸ hr).1
          exact h.1 ⟨hc1, by rw [hc2]; exact hc'⟩

theorem mem_dropWhile {c : Char} {p : Char → Bool} {s : Str}
    (h : c ∈ s.dropWhile p) : c ∈ s :=
  (List.dropWhile_sublist p).subset h

theorem dropWhile_head_not {p : Char → Bool} :
    ∀ {s : Str} {c : Char} {t : Str}, s.dropWhile p = c :: t → p c = false := by
  intro s
  induction s with
  | nil => intro c t h; simp [List.dropWhile] at h
  | cons c1 r ih =>
    intro c t h
    rw [List.dropWhile_cons] at h
    by_cases hp : p c1 = true
    · rw [if_pos hp] at h
      exact ih h
    · rw [if_neg hp] at h
      have : c1 = c := (List.cons.injEq _ _ _ _ ▸ h).1
      rw [← this]
      exact Bool.eq_false_iff.mpr hp

theorem noDbl_dropWhile {p : Char → Bool} :
    ∀ {s : Str}, NoDbl s → NoDbl (s.dropWhile p) := by
  intro s
  induction s with
  | nil => intro _; trivial
  | cons c1 r ih =>
    intro h
    rw [List.dropWhile_cons]
    by_cases hp : p c1 = true
    · rw [if_pos hp]
      exact ih (noDbl_tail h)
    · rw [if_neg hp]
      exact h

theorem dropWhile_eq_self {p : Char → Bool} :
    ∀ {s : Str}, (∀ c t, s = c :: t → p c = false) → s.dropWhile p = s := by
  intro s h
  cases s with
  | nil => rfl
  | cons c r =>
    rw [List.dropWhile_cons, if_neg (by rw [h c r rfl]; simp)]

theorem map_id_of_fixed {f : Char → Char} :
    ∀ {s : Str}, (∀ c ∈ s, f c = c) → s.map f = s := by
  intro s
  induction s with
  | nil => intro _; rfl
  | cons c r ih =>
    intro h
    rw [List.map_cons, h c (List.mem_cons_self _ _),
      ih fun c' hc' => h c' (List.mem_cons_of_mem _ hc')]

/-- Characters of the normalization chain's output: plain spaces, or
lowercase-fixed word characters; and every character descends from a
`pyLower` image of an input character (or is the space separator). -/
theorem normChain_chars {s : Str} {c : Char} (hc : c ∈ normChain s) :
    ((isWordChar c = true ∧ isSpaceChar c = false ∧ pyLower c = c) ∨ c = ' ') ∧
      (c = ' ' ∨ ∃ c0 ∈ s, c = pyLower c0) := by
  unfold normChain pyStrip at hc
  have hc2 := mem_dropWhile (mem_stripEnd hc)
  have hc3 := mem_squeezeSp hc2
  rcases List.mem_map.mp hc3 with ⟨c', hc', hspac⟩
  rcases List.mem_filter.mp hc' with ⟨hc'', hkeep⟩
  rcases List.mem_map.mp hc'' with ⟨c0, hc0, hlow⟩
  by_cases hsp : isSpaceChar c' = true
  · have : c = ' ' := by rw [← hspac]; unfold spacify; rw [if_pos hsp]
    exact ⟨Or.inr this, Or.inl this⟩
  · have hcc : c = c' := by
      rw [← hspac]
      unfold spacify
      rw [if_neg hsp]
    have hword : isWordChar c' = true := by
      rcases Bool.or_eq_true_iff.mp hkeep with h | h
      · exact h
      · exact absurd h hsp
    have hw2 : isWordChar c = true := by rw [hcc]; exact hword
    have hs2 : isSpaceChar c = false := by
      rw [hcc]
      exact Bool.eq_false_iff.mpr hsp
    have hfix : pyLower c = c := by
      rw [hcc, ← hlow]
      exact pyLower_pyLower c0
    exact ⟨Or.inl ⟨hw2, hs2, hfix⟩, Or.inr ⟨c0, hc0, by rw [hcc, ← hlow]⟩⟩

theorem normChain_noDbl (s : Str) : NoDbl (normChain s) :=
  noDbl_stripEnd (noDbl_dropWhile (noDbl_squeezeSp _))

theorem normChain_head {s : Str} {c : Char} {t : Str}
    (h : normChain s = c :: t) : isSpaceChar c = false := by
  unfold normChain pyStrip at h
  cases hd : (squeezeSp (List.map spacify
      (List.filter (fun c => isWordChar c || isSpaceChar c)
        (List.map pyLower s)))).dropWhile (fun c => isSpaceChar c) with
  | nil => rw [hd] at h; exact absurd h (by simp [stripEnd])
  | cons c1 r =>
    rw [hd] at h
    rcases stripEnd_cons_shape c1 r with hsh | ⟨t', hsh⟩
    · rw [hsh] at h; exact absurd h (by simp)
    · rw [hsh] at h
      have : c1 = c := (List.cons.injEq _ _ _ _ ▸ h).1
      rw [← this]
      exact dropWhile_head_not hd

theorem normChain_last {s : Str} {c : Char}
    (h : (normChain s).getLast? = some c) : isSpaceChar c = false :=
  stripEnd_last_not_space h

/-- The chain fixes its own output. -/
theorem normChain_eq_self {t : Str}
    (h1 : ∀ c ∈ t, (isWordChar c = true ∧ isSpaceChar c = false ∧
      pyLower c = c) ∨ c = ' ')
    (h2 : NoDbl t)
    (h3 : ∀ c t', t = c :: t' → isSpaceChar c = false)
    (h4 : ∀ c, t.getLast? = some c → isSpaceChar c = false) :
    normChain t = t := by
  unfold normChain
  have e1 : t.map pyLower = t := by
    refine map_id_of_fixed ?_
    intro c hc
    rcases h1 c hc with ⟨_, _, hf⟩ | hsp
    · exact hf
    · rw [hsp]; decide
  rw [e1]
  have e2 : t.filter (fun c => isWordChar c || isSpaceChar c) = t := by
    rw [List.filter_eq_self]
    intro c hc
    rcases h1 c hc with ⟨hw, _, _⟩ | hsp
    · rw [hw]; rfl
    · rw [hsp]; decide
  rw [e2]
  have e3 : t.map spacify = t := by
    refine map_id_of_fixed ?_
    intro c hc
    rcases h1 c hc with ⟨_, hns, _⟩ | hsp
    · unfold spacify; rw [if_neg (by rw [hns]; simp)]
    · rw [hsp]; decide
  rw [e3]
  rw [squeezeSp_eq_self h2]
  unfold pyStrip
  rw [dropWhile_eq_self (by intro c t' hct; rw [h3 c t' hct])]
  exact stripEnd_eq_self h4

theorem normChain_idem (s : Str) : normChain (normChain s) = normChain s :=
  normChain_eq_self (fun _ hc => (normChain_chars hc).1) (normChain_noDbl s)
    (fun _ _ h => normChain_head h) (fun _ h => normChain_last h)

/-- `clean.py`'s `normalize_string` is idempotent (on the string domain). -/
theorem normalize_string_idem (s : Str) :
    normalize_string (normalize_string s) = normalize_string s := by
  unfold normalize_string
  by_cases h : s = []
  · rw [if_pos h, if_pos rfl]
  · rw [if_neg h]
    by_cases h2 : normChain s = []
    · rw [if_pos h2, h2]
    · rw [if_neg h2]
      exact normChain_idem s

theorem splitWsAux_tokens :
    ∀ (s acc : Str), (∀ c ∈ acc, isSpaceChar c = false) →
      ∀ t ∈ splitWsAux s acc,
        t ≠ [] ∧ ∀ c ∈ t, isSpaceChar c = false ∧ (c ∈ s ∨ c ∈ acc) := by
  intro s
  induction s with
  | nil =>
    intro acc hacc t ht
    rw [splitWsAux] at ht
    by_cases hae : acc = []
    · rw [if_pos hae] at ht
      exact absurd ht (List.not_mem_nil t)
    · rw [if_neg hae] at ht
      rw [List.mem_singleton] at ht
      subst ht
      refine ⟨by simpa using hae, ?_⟩
      intro c hc
      rw [List.mem_reverse] at hc
      exact ⟨hacc c hc, Or.inr hc⟩
  | cons c1 r ih =>
    intro acc hacc t ht
    rw [splitWsAux] at ht
    by_cases hsp : isSpaceChar c1 = true
    · rw [if_pos hsp] at ht
      by_cases hae : acc = []
      · rw [if_pos hae] at ht
        obtain ⟨hne, hch⟩ := ih [] (by intro c hc; simp at hc) t ht
        refine ⟨hne, ?_⟩
        intro c hc
        obtain ⟨h1, h2⟩ := hch c hc
        rcases h2 with h2 | h2
        · exact ⟨h1, Or.inl (List.mem_cons_of_mem _ h2)⟩
        · simp at h2
      · rw [if_neg hae] at ht
        rcases List.mem_cons.mp ht with ht | ht
        · subst ht
          refine ⟨by simpa using hae, ?_⟩
          intro c hc
          rw [List.mem_reverse] at hc
          exact ⟨hacc c hc, Or.inr hc⟩
        · obtain ⟨hne, hch⟩ := ih [] (by intro c hc; simp at hc) t ht
          refine ⟨hne, ?_⟩
          intro c hc
          obtain ⟨h1, h2⟩ := hch c hc
          rcases h2 with h2 | h2
          · exact ⟨h1, Or.inl (List.mem_cons_of_mem _ h2)⟩
          · simp at h2
    · rw [if_neg hsp] at ht
      have hacc' : ∀ c ∈ c1 :: acc, isSpaceChar c = false := by
        intro c hc
        rcases List.mem_cons.mp hc with hc | hc
        · rw [hc]
          exact Bool.eq_false_iff.mpr hsp
        · exact hacc c hc
      obtain ⟨hne, hch⟩ := ih (c1 :: acc) hacc' t ht
      refine ⟨hne, ?_⟩
      intro c hc
      obtain ⟨h1, h2⟩ := hch c hc
      rcases h2 with h2 | h2
      · exact ⟨h1, Or.inl (List.mem_cons_of_mem _ h2)⟩
      · rcases List.mem_cons.mp h2 with h2 | h2
        · exact ⟨h1, Or.inl (by rw [h2]; exact List.mem_cons_self _ _)⟩
        · exact ⟨h1, Or.inr h2⟩

theorem splitWsAux_chunk :
    ∀ (w : Str), (∀ c ∈ w, isSpaceChar c = false) →
      ∀ (s acc : Str), splitWsAux (w ++ s) acc = splitWsAux s (w.reverse ++ acc) := by
  intro w
  induction w with
  | nil => intro _ s acc; rfl
  | cons c w' ih =>
    intro hw s acc
    rw [List.cons_append, splitWsAux,
      if_neg (by rw [hw c (List.mem_cons_self _ _)]; simp)]
    rw [ih (fun c' hc' => hw c' (List.mem_cons_of_mem _ hc')) s (c :: acc)]
    rw [List.reverse_cons, List.append_assoc, List.singleton_append]

theorem splitWs_joinSep :
    ∀ (ws : List Str),
      (∀ t ∈ ws, t ≠ [] ∧ ∀ c ∈ t, isSpaceChar c = false) →
      splitWs (joinSep ' ' ws) = ws := by
  intro ws
  induction ws with
  | nil => intro _; rfl
  | cons t ws ih =>
    intro h
    obtain ⟨hne, hch⟩ := h t (List.mem_cons_self _ _)
    cases ws with
    | nil =>
      show splitWs t = [t]
      unfold splitWs
      have := splitWsAux_chunk t hch [] []
      rw [List.append_nil, List.append_nil] at this
      rw [this, splitWsAux,
        if_neg (by simpa using hne), List.reverse_reverse]
    | cons t2 ws2 =>
      show splitWs (t ++ ' ' :: joinSep ' ' (t2 :: ws2)) = t :: t2 :: ws2
      unfold splitWs
      rw [splitWsAux_chunk t hch _ [], List.append_nil, splitWsAux,
        if_pos (by decide), if_neg (by simpa using hne), List.reverse_reverse]
      have ihh := ih fun t' ht' => h t' (List.mem_cons_of_mem _ ht')
      unfold splitWs at ihh
      rw [ihh]

theorem mem_joinSep {c : Char} :
    ∀ {ws : List Str}, c ∈ joinSep ' ' ws → c = ' ' ∨ ∃ t ∈ ws, c ∈ t := by
  intro ws
  induction ws with
  | nil => intro h; exact absurd h (List.not_mem_nil c)
  | cons t ws ih =>
    cases ws with
    | nil =>
      intro h
      exact Or.inr ⟨t, List.mem_cons_self _ _, h⟩
    | cons t2 ws2 =>
      intro h
      rw [show joinSep ' ' (t :: t2 :: ws2) = t ++ ' ' :: joinSep ' ' (t2 :: ws2)
        from rfl] at h
      rcases List.mem_append.mp h with h | h
      · exact Or.inr ⟨t, List.mem_cons_self _ _, h⟩
      · rcases List.mem_cons.mp h with h | h
        · exact Or.inl h
        · rcases ih h with h | ⟨t', ht', hc'⟩
          · exact Or.inl h
          · exact Or.inr ⟨t', List.mem_cons_of_mem _ ht', hc'⟩

/-- `clean_mf.py`'s `normalize_text` is idempotent (on the string domain). -/
theorem normalize_text_idem (s : Str) :
    normalize_text (normalize_text s) = normalize_text s := by
  have hw : ∀ c ∈ (List.map (fun c => if isWordChar c || isSpaceChar c
      then c else ' ') (List.map pyLower s)),
      (if isWordChar c || isSpaceChar c then c else ' ') = c ∧ pyLower c = c := by
    intro c hc
    rcases List.mem_map.mp hc with ⟨x, hx, hsub⟩
    rcases List.mem_map.mp hx with ⟨c0, _, hlow⟩
    by_cases hk : (isWordChar x || isSpaceChar x) = true
    · rw [if_pos hk] at hsub
      subst hsub
      rw [if_pos hk]
      exact ⟨rfl, by rw [← hlow]; exact pyLower_pyLower c0⟩
    · rw [if_neg hk] at hsub
      rw [← hsub]
      exact ⟨by decide, by decide⟩
  have htok := splitWsAux_tokens (List.map (fun c => if isWordChar c ||
      isSpaceChar c then c else ' ') (List.map pyLower s)) []
    (by intro c hc; simp at hc)
  have hu : ∀ c ∈ normalize_text s,
      (if isWordChar c || isSpaceChar c then c else ' ') = c ∧ pyLower c = c := by
    intro c hc
    unfold normalize_text at hc
    rcases mem_joinSep hc with hc | ⟨t, ht, hct⟩
    · rw [hc]
      exact ⟨by decide, by decide⟩
    · obtain ⟨_, hch⟩ := htok t ht
      rcases (hch c hct).2 with h | h
      · exact hw c h
      · simp at h
  have htoks' : ∀ t ∈ splitWs (List.map (fun c => if isWordChar c ||
      isSpaceChar c then c else ' ') (List.map pyLower s)),
      t ≠ [] ∧ ∀ c ∈ t, isSpaceChar c = false := by
    intro t ht
    obtain ⟨hne, hch⟩ := htok t ht
    exact ⟨hne, fun c hc => (hch c hc).1⟩
  calc normalize_text (normalize_text s)
      = joinSep ' ' (splitWs (List.map (fun c => if isWordChar c ||
          isSpaceChar c then c else ' ')
          (List.map pyLower (normalize_text s)))) := rfl
    _ = joinSep ' ' (splitWs (normalize_text s)) := by
        rw [map_id_of_fixed (fun c hc => (hu c hc).2)]
        rw [map_id_of_fixed (fun c hc => (hu c hc).1)]
    _ = normalize_text s := by
        show joinSep ' ' (splitWs (joinSep ' ' (splitWs _))) = _
        rw [splitWs_joinSep _ htoks']
        rfl

theorem sep_split_unique {sep : Char} :
    ∀ (a1 a2 r1 r2 : Str), sep ∉ a1 → sep ∉ a2 →
      a1 ++ sep :: r1 = a2 ++ sep :: r2 → a1 = a2 ∧ r1 = r2 := by
  intro a1
  induction a1 with
  | nil =>
    intro a2 r1 r2 _ h2 heq
    cases a2 with
    | nil =>
      rw [List.nil_append, List.nil_append] at heq
      exact ⟨rfl, (List.cons.injEq _ _ _ _ ▸ heq).2⟩
    | cons c a2' =>
      rw [List.nil_append, List.cons_append] at heq
      have hc : sep = c := (List.cons.injEq _ _ _ _ ▸ heq).1
      exact absurd (by rw [hc]; exact List.mem_cons_self _ _) h2
  | cons c a1' ih =>
    intro a2 r1 r2 h1 h2 heq
    cases a2 with
    | nil =>
      rw [List.nil_append, List.cons_append] at heq
      have hc : c = sep := (List.cons.injEq _ _ _ _ ▸ heq).1
      exact absurd (by rw [← hc]; exact List.mem_cons_self _ _) h1
    | cons c2 a2' =>
      rw [List.cons_append, List.cons_append] at heq
      have hc : c = c2 := (List.cons.injEq _ _ _ _ ▸ heq).1
      have htl := (List.cons.injEq _ _ _ _ ▸ heq).2
      obtain ⟨he1, he2⟩ := ih a2' r1 r2
        (fun hm => h1 (List.mem_cons_of_mem _ hm))
        (fun hm => h2 (List.mem_cons_of_mem _ hm)) htl
      exact ⟨by rw [hc, he1], he2⟩

/-- `sep.join` is injective on lists of separator-free parts of equal
length. -/
theorem joinSep_inj {sep : Char} :
    ∀ (ws1 ws2 : List Str), ws1.length = ws2.length →
      (∀ w ∈ ws1, sep ∉ w) → (∀ w ∈ ws2, sep ∉ w) →
      joinSep sep ws1 = joinSep sep ws2 → ws1 = ws2 := by
  intro ws1
  induction ws1 with
  | nil =>
    intro ws2 hlen _ _ _
    cases ws2 with
    | nil => rfl
    | cons _ _ => simp at hlen
  | cons w1 ws1 ih =>
    intro ws2 hlen hf1 hf2 heq
    cases ws2 with
    | nil => simp at hlen
    | cons w2 ws2 =>
      cases ws1 with
      | nil =>
        cases ws2 with
        | nil => rw [show joinSep sep [w1] = w1 from rfl,
            show joinSep sep [w2] = w2 from rfl] at heq; rw [heq]
        | cons _ _ => simp at hlen
      | cons w1' ws1' =>
        cases ws2 with
        | nil => simp at hlen
        | cons w2' ws2' =>
          rw [show joinSep sep (w1 :: w1' :: ws1') =
              w1 ++ sep :: joinSep sep (w1' :: ws1') from rfl,
            show joinSep sep (w2 :: w2' :: ws2') =
              w2 ++ sep :: joinSep sep (w2' :: ws2') from rfl] at heq
          obtain ⟨he1, he2⟩ := sep_split_unique w1 w2 _ _
            (hf1 w1 (List.mem_cons_self _ _)) (hf2 w2 (List.mem_cons_self _ _))
            heq
          have hrest := ih (w2' :: ws2') (by simpa using hlen)
            (fun w hw => hf1 w (List.mem_cons_of_mem _ hw))
            (fun w hw => hf2 w (List.mem_cons_of_mem _ hw)) he2
          rw [he1, hrest]

theorem c1_partition_complete (es : List BibEntry) :
    (unique_entries es).length + (dedupPairs es).length = es.length ∧
    (uniqueIdx es).Nodup ∧ (removedIdx es).Nodup ∧
    ∀ i, i < es.length →
      (i ∈ uniqueIdx es ∧ i ∉ removedIdx es) ∨
      (i ∉ uniqueIdx es ∧ i ∈ removedIdx es) := by
  obtain ⟨hnd, hlt, _⟩ := dedupPairs_inv es
  have hndR : (removedIdx es).Nodup := hnd
  have hsub : ∀ d ∈ removedIdx es, d < es.length := by
    intro d hd
    rcases List.mem_map.mp hd with ⟨p, hp, hpe⟩
    rw [← hpe]
    exact hlt p hp
  have huNodup : (uniqueIdx es).Nodup :=
    List.Nodup.filter _ (List.nodup_range _)
  refine ⟨?_, huNodup, hndR, ?_⟩
  · have h1 : (unique_entries es).length = (uniqueIdx es).length :=
      List.length_map _ _
    have hperm : List.Perm ((List.range es.length).filter
        (fun i => decide (i ∈ removedIdx es))) (removedIdx es) := by
      refine (List.perm_ext_iff_of_nodup
        (List.Nodup.filter _ (List.nodup_range _)) hndR).mpr ?_
      intro a
      rw [List.mem_filter, List.mem_range]
      constructor
      · rintro ⟨_, h⟩
        exact of_decide_eq_true h
      · intro h
        exact ⟨hsub a h, decide_eq_true h⟩
    have hfp := List.filter_append_perm
      (fun i => decide (i ∈ removedIdx es)) (List.range es.length)
    have hlen := hfp.length_eq
    rw [List.length_append, List.length_range] at hlen
    have hux : uniqueIdx es = (List.range es.length).filter
        (fun i => !(decide (i ∈ removedIdx es))) := by
      unfold uniqueIdx
      simp only [decide_not]
    have hpl := hperm.length_eq
    have hrm : (removedIdx es).length = (dedupPairs es).length :=
      List.length_map _ _
    rw [h1, hux]
    omega
  · intro i hi
    by_cases hmem : i ∈ removedIdx es
    · right
      refine ⟨?_, hmem⟩
      intro hu
      have := (List.mem_filter.mp hu).2
      rw [decide_eq_true_eq] at this
      exact this hmem
    · left
      refine ⟨?_, hmem⟩
      unfold uniqueIdx
      rw [List.mem_filter, List.mem_range]
      exact ⟨hi, decide_eq_true hmem⟩

/-- C1 witness: the partition equation and the placement of index 0 on a
concrete three-entry batch (one DOI duplicate, one fuzzy duplicate). -/
theorem c1_partition_complete_witness :
    (unique_entries [⟨some "ab".toList, some "c".toList, none⟩,
        ⟨some "ab".toList, some "c".toList, some "10.1/x".toList⟩,
        ⟨some "xq".toList, some "d".toList, some "10.1/x".toList⟩]).length +
      (dedupPairs [⟨some "ab".toList, some "c".toList, none⟩,
        ⟨some "ab".toList, some "c".toList, some "10.1/x".toList⟩,
        ⟨some "xq".toList, some "d".toList, some "10.1/x".toList⟩]).length = 3 ∧
    ((0 ∈ uniqueIdx [⟨some "ab".toList, some "c".toList, none⟩,
        ⟨some "ab".toList, some "c".toList, some "10.1/x".toList⟩,
        ⟨some "xq".toList, some "d".toList, some "10.1/x".toList⟩] ∧
      0 ∉ removedIdx [⟨some "ab".toList, some "c".toList, none⟩,
        ⟨some "ab".toList, some "c".toList, some "10.1/x".toList⟩,
        ⟨some "xq".toList, some "d".toList, some "10.1/x".toList⟩]) ∨
     (0 ∉ uniqueIdx [⟨some "ab".toList, some "c".toList, none⟩,
        ⟨some "ab".toList, some "c".toList, some "10.1/x".toList⟩,
        ⟨some "xq".toList, some "d".toList, some "10.1/x".toList⟩] ∧
      0 ∈ removedIdx [⟨some "ab".toList, some "c".toList, none⟩,
        ⟨some "ab".toList, some "c".toList, some "10.1/x".toList⟩,
        ⟨some "xq".toList, some "d".toList, some "10.1/x".toList⟩])) :=
  ⟨(c1_partition_complete _).1,
   (c1_partition_complete _).2.2.2 0 (by decide)⟩

/-- C2 counterexample: on a concrete batch, entry 1 is the original of the
DOI pair `(1, 2)` and later the duplicate of the fuzzy pair `(0, 1)` — a
record claimed as an original IS reconsidered as a candidate duplicate, so
"no Record is both an `original` and a `duplicate` across groups" fails. -/
theorem c2_counterexample :
    dedupPairs [⟨some "ab".toList, some "c".toList, none⟩,
        ⟨some "ab".toList, some "c".toList, some "10.1/x".toList⟩,
        ⟨some "xq".toList, some "d".toList, some "10.1/x".toList⟩] =
      [(1, 2), (0, 1)] ∧
    ¬ (∀ p ∈ dedupPairs [⟨some "ab".toList, some "c".toList, none⟩,
        ⟨some "ab".toList, some "c".toList, some "10.1/x".toList⟩,
        ⟨some "xq".toList, some "d".toList, some "10.1/x".toList⟩],
       ∀ q ∈ dedupPairs [⟨some "ab".toList, some "c".toList, none⟩,
        ⟨some "ab".toList, some "c".toList, some "10.1/x".toList⟩,
        ⟨some "xq".toList, some "d".toList, some "10.1/x".toList⟩],
       p.2 ≠ q.1) := by
  constructor
  · decide
  · intro h
    exact h (0, 1) (by decide) (1, 2) (by decide) rfl

/-- C2 (amended): no record appears as a duplicate in more than one pair, and
once a record is claimed as a duplicate, no later-or-equal pair uses it —
as an original or as a duplicate.  (A record that served as an *original*
may, however, later be claimed as a duplicate, as the counterexample
shows.) -/
theorem c2_terminal_status_amended (es : List BibEntry) :
    ((dedupPairs es).map (fun p => p.2)).Nodup ∧ NoReclaim (dedupPairs es) :=
  ⟨(dedupPairs_inv es).1, (dedupPairs_inv es).2.2⟩

/-- C2 witness: `NoReclaim` instantiated on the concrete batch — the DOI
pair's duplicate (entry 2) is not the original of the later fuzzy pair. -/
theorem c2_terminal_status_amended_witness :
    ((dedupPairs [⟨some "ab".toList, some "c".toList, none⟩,
        ⟨some "ab".toList, some "c".toList, some "10.1/x".toList⟩,
        ⟨some "xq".toList, some "d".toList, some "10.1/x".toList⟩]).map
      (fun p => p.2)).Nodup ∧
    ((1, 2) : Nat × Nat).2 ≠ ((0, 1) : Nat × Nat).1 :=
  ⟨(c2_terminal_status_amended _).1,
   (c2_terminal_status_amended [⟨some "ab".toList, some "c".toList, none⟩,
        ⟨some "ab".toList, some "c".toList, some "10.1/x".toList⟩,
        ⟨some "xq".toList, some "d".toList, some "10.1/x".toList⟩]).2
      0 1 (1, 2) (0, 1) (by omega) (by decide) (by decide)⟩

/-- C3: AND semantics with strict thresholds and short-circuit — a fuzzy
match requires title similarity strictly above 0.95 AND author similarity
strictly above 0.8; when the title similarity does not exceed the threshold
the result is no-match for every author value (the author comparison is never
evaluated). -/
theorem c3_fuzzy_and_semantics (e1 e2 : BibEntry) :
    (are_entries_similar e1 e2 95 100 8 10 = true →
      calculate_similarity (normalize_string (getTitle e1))
          (normalize_string (getTitle e2)) > 95 / 100 ∧
      calculate_similarity (normalize_string (getAuthor e1))
          (normalize_string (getAuthor e2)) > 8 / 10) ∧
    (calculate_similarity (normalize_string (getTitle e1))
        (normalize_string (getTitle e2)) ≤ 95 / 100 →
      ∀ a1 a2 : Option Str,
        are_entries_similar ⟨e1.title, a1, e1.doi⟩ ⟨e2.title, a2, e2.doi⟩
          95 100 8 10 = false) := by
  have hIffT : ∀ s1 s2 : Str, simGt s1 s2 95 100 = true ↔
      calculate_similarity s1 s2 > 95 / 100 := by
    intro s1 s2
    have h := simGt_iff s1 s2 95 100 (by norm_num)
    push_cast at h
    exact h
  have hIffA : ∀ s1 s2 : Str, simGt s1 s2 8 10 = true ↔
      calculate_similarity s1 s2 > 8 / 10 := by
    intro s1 s2
    have h := simGt_iff s1 s2 8 10 (by norm_num)
    push_cast at h
    exact h
  constructor
  · intro h
    unfold are_entries_similar at h
    by_cases ht : simGt (normalize_string (getTitle e1))
        (normalize_string (getTitle e2)) 95 100 = true
    · rw [if_pos ht] at h
      exact ⟨(hIffT _ _).mp ht, (hIffA _ _).mp h⟩
    · rw [if_neg ht] at h
      exact absurd h (by simp)
  · intro hle a1 a2
    unfold are_entries_similar
    have hng : ¬ simGt (normalize_string
        (getTitle (⟨e1.title, a1, e1.doi⟩ : BibEntry)))
        (normalize_string (getTitle (⟨e2.title, a2, e2.doi⟩ : BibEntry)))
        95 100 = true := by
      show ¬ simGt (normalize_string (getTitle e1))
        (normalize_string (getTitle e2)) 95 100 = true
      intro hgt
      exact absurd ((hIffT _ _).mp hgt) (not_lt.mpr hle)
    rw [if_neg hng]

/-- C3 witness: two entries with dissimilar titles (`"ab"` vs `"xy"`, title
similarity 0) are not matched, whatever the authors. -/
theorem c3_fuzzy_and_semantics_witness :
    are_entries_similar ⟨some "ab".toList, some "c".toList, none⟩
      ⟨some "xy".toList, some "c".toList, none⟩ 95 100 8 10 = false := by
  have hle : calculate_similarity
      (normalize_string (getTitle (⟨some "ab".toList, some "q".toList, none⟩ :
        BibEntry)))
      (normalize_string (getTitle (⟨some "xy".toList, some "q".toList, none⟩ :
        BibEntry))) ≤ 95 / 100 := by
    have hb : simGt (normalize_string (getTitle
        (⟨some "ab".toList, some "q".toList, none⟩ : BibEntry)))
        (normalize_string (getTitle
        (⟨some "xy".toList, some "q".toList, none⟩ : BibEntry))) 95 100
        = false := by decide
    refine not_lt.mp ?_
    intro hgt
    have h := (simGt_iff _ _ 95 100 (by norm_num)).mpr (by push_cast; exact hgt)
    rw [hb] at h
    exact Bool.false_ne_true h
  exact (c3_fuzzy_and_semantics
    ⟨some "ab".toList, some "q".toList, none⟩
    ⟨some "xy".toList, some "q".toList, none⟩).2 hle
    (some "c".toList) (some "c".toList)

/-- C4 counterexample: `clean_mf.py:are_duplicates` (a cited exact-key
comparison) strips but does NOT lowercase, so the identifiers `"10.1/ABC "`
and `"10.1/abc"` — equal up to case and surrounding whitespace, and
key-equal under `clean.py`'s normalization — are NOT matched there. -/
theorem c4_counterexample :
    are_duplicates ⟨none, none, some "10.1/ABC ".toList⟩
      ⟨none, none, some "10.1/abc".toList⟩ = false ∧
    doiKey "10.1/ABC ".toList = doiKey "10.1/abc".toList := by
  exact ⟨by decide, by decide⟩

/-- C4 (amended): in `clean.py` the exact-key pass lowercases and strips, so
case/whitespace-differing identifiers are matched, the duplicate is
attributed to the first record seen with that key, and empty or missing
identifiers never participate; in `clean_mf.py` the DOI comparison strips
only, so case-differing identifiers are not matched there (empty/missing
identifiers are still never matched, and strip-equal ones are). -/
theorem c4_exact_key_amended (es : List BibEntry) :
    (∀ p ∈ check_doi_duplicates es, DoiPairOk es p) ∧
    check_doi_duplicates [⟨none, none, some "10.1/ABC ".toList⟩,
      ⟨none, none, some "10.1/abc".toList⟩] = [(0, 1)] ∧
    (∀ e1 e2 : BibEntry, e1.doi = none ∨ e1.doi = some [] →
      mfDoiMatch e1 e2 = false ∧ mfDoiMatch e2 e1 = false) ∧
    (∀ d1 d2 : Str, d1 ≠ [] → d2 ≠ [] → pyStrip d1 = pyStrip d2 →
      mfDoiMatch ⟨none, none, some d1⟩ ⟨none, none, some d2⟩ = true) := by
  refine ⟨(check_doi_duplicates_inv es).2.2.2, by decide, ?_, ?_⟩
  · intro e1 e2 h
    have hd : truthyDoi e1 = none := by
      unfold truthyDoi
      rcases h with h | h <;> (rw [h]; try rfl)
    constructor
    · unfold mfDoiMatch
      rw [hd]
    · unfold mfDoiMatch
      rw [hd]
      cases truthyDoi e2 <;> rfl
  · intro d1 d2 h1 h2 heq
    unfold mfDoiMatch truthyDoi
    simp only [if_neg h1, if_neg h2]
    exact decide_eq_true heq

/-- C4 witness: the first-seen/exact-key specification holds of the one pair
emitted on the concrete case/whitespace example. -/
theorem c4_exact_key_amended_witness :
    DoiPairOk [⟨none, none, some "10.1/ABC ".toList⟩,
      ⟨none, none, some "10.1/abc".toList⟩] (0, 1) :=
  (c4_exact_key_amended [⟨none, none, some "10.1/ABC ".toList⟩,
    ⟨none, none, some "10.1/abc".toList⟩]).1 (0, 1) (by decide)

/-- C5 counterexample: the similarity scorer is NOT symmetric —
`SequenceMatcher` ratios differ on `("ab", "bacb")` (2/3) versus
`("bacb", "ab")` (1/3). -/
theorem c5_counterexample :
    calculate_similarity "ab".toList "bacb".toList ≠
      calculate_similarity "bacb".toList "ab".toList := by
  have h1 : matchTotal "ab".toList "bacb".toList = 2 := by decide
  have h2 : matchTotal "bacb".toList "ab".toList = 1 := by decide
  have l1 : ("ab".toList : Str).length = 2 := by decide
  have l2 : ("bacb".toList : Str).length = 4 := by decide
  unfold calculate_similarity
  rw [h1, h2, l1, l2]
  norm_num

/-- C5 (amended): symmetry fails (see the counterexample), but the remaining
scorer contracts hold: `similarity(a, a) = 1` for nonempty `a`,
`similarity("", "") = 1`, and comparing the empty string with a nonempty one
gives `0` (in both argument orders). -/
theorem c5_similarity_contracts_amended :
    (∀ a : Str, a ≠ [] → calculate_similarity a a = 1) ∧
    calculate_similarity [] [] = 1 ∧
    (∀ b : Str, b ≠ [] →
      calculate_similarity [] b = 0 ∧ calculate_similarity b [] = 0) := by
  refine ⟨?_, rfl, ?_⟩
  · intro a ha
    have hl : a.length ≠ 0 := fun h => ha (List.length_eq_zero.mp h)
    unfold calculate_similarity
    rw [if_neg (by omega), matchTotal_self]
    have hq : (a.length : ℚ) ≠ 0 := by exact_mod_cast hl
    field_simp
    ring
  · intro b hb
    have hl : b.length ≠ 0 := fun h => hb (List.length_eq_zero.mp h)
    have hm1 : matchTotal [] b = 0 := by
      unfold matchTotal
      exact matchTotalFuel_degenerate [] b _ 0 0 0 b.length (Or.inl (le_refl 0))
    have hm2 : matchTotal b [] = 0 := by
      unfold matchTotal
      exact matchTotalFuel_degenerate b [] _ 0 b.length 0 0 (Or.inr (le_refl 0))
    constructor
    · unfold calculate_similarity
      rw [if_neg (by simp [hl]), hm1]
      simp
    · unfold calculate_similarity
      rw [if_neg (by simp [hl]), hm2]
      simp

/-- C5 witness: the surviving contracts at concrete strings. -/
theorem c5_similarity_contracts_amended_witness :
    calculate_similarity "ab".toList "ab".toList = 1 ∧
    calculate_similarity [] "x".toList = 0 :=
  ⟨c5_similarity_contracts_amended.1 "ab".toList (by decide),
   (c5_similarity_contracts_amended.2.2 "x".toList (by decide)).1⟩

/-- C6 counterexample: `clean.py:normalize_string` does NOT map a NaN input
to the empty string — a float NaN is truthy, so `text.lower()` raises
`AttributeError` (modelled as `Except.error`). -/
theorem c6_counterexample :
    normalize_string_py PyVal.nan = Except.error () ∧
    normalize_string_py PyVal.nan ≠ Except.ok [] := by
  refine ⟨rfl, ?_⟩
  intro h
  exact Except.noConfusion (show (Except.error () : Except Unit Str) =
    Except.ok [] from h)

/-- C6 (amended): both normalizers are idempotent, and `None`/missing/empty
input yields the empty string; a NaN input yields the empty string only in
`clean_mf.py`'s `normalize_text` (via `pd.isna`), while `clean.py`'s
`normalize_string` raises on NaN. -/
theorem c6_normalize_amended :
    (∀ s : Str, normalize_string (normalize_string s) = normalize_string s) ∧
    (∀ s : Str, normalize_text (normalize_text s) = normalize_text s) ∧
    normalize_string_py PyVal.pynone = Except.ok [] ∧
    normalize_string_py (PyVal.str []) = Except.ok [] ∧
    normalize_text_py PyVal.pynone = [] ∧
    normalize_text_py PyVal.nan = [] ∧
    normalize_string_py PyVal.nan = Except.error () :=
  ⟨normalize_string_idem, normalize_text_idem, rfl, rfl, rfl, rfl, rfl⟩

/-- C7 counterexample: `_` is a word character and survives normalization, so
the composite-key separator DOES appear in normalized output, and two rows
with distinct segment tuples — `("a_b", "")` and `("a", "b_")` — collide on
the composite key `"a_b_"`. -/
theorem c7_counterexample :
    '_' ∈ normChain "a_b".toList ∧
    generate_comparison_key ["t".toList, "u".toList]
        [("t".toList, PyVal.str "a_b".toList), ("u".toList, PyVal.str [])] =
      generate_comparison_key ["t".toList, "u".toList]
        [("t".toList, PyVal.str "a".toList),
         ("u".toList, PyVal.str "b_".toList)] ∧
    ["t".toList, "u".toList].map
        (fun c => csvSegment
          [("t".toList, PyVal.str "a_b".toList),
           ("u".toList, PyVal.str [])] c) ≠
      ["t".toList, "u".toList].map
        (fun c => csvSegment
          [("t".toList, PyVal.str "a".toList),
           ("u".toList, PyVal.str "b_".toList)] c) := by
  refine ⟨by decide, by decide, by decide⟩

/-- C7 (amended): normalization preserves `_` (it is in `\w`), so separator
safety only holds conditionally — for rows whose normalized segments are
underscore-free, distinct segment tuples give distinct composite keys; and
normalization introduces no underscore that was not in the input. -/
theorem c7_separator_amended :
    (∀ s : Str, '_' ∉ s → '_' ∉ normChain s) ∧
    (∀ (cols : List Str) (r1 r2 : Row),
      (∀ c ∈ cols, '_' ∉ csvSegment r1 c) →
      (∀ c ∈ cols, '_' ∉ csvSegment r2 c) →
      generate_comparison_key cols r1 = generate_comparison_key cols r2 →
      cols.map (fun c => csvSegment r1 c) = cols.map (fun c => csvSegment r2 c)) := by
  constructor
  · intro s hs hmem
    rcases (normChain_chars hmem).2 with h | ⟨c0, hc0, hc⟩
    · exact absurd h (by decide)
    · have hc0u : c0 = '_' := pyLower_eq_underscore hc.symm
      rw [hc0u] at hc0
      exact hs hc0
  · intro cols r1 r2 h1 h2 heq
    refine joinSep_inj _ _ (by simp) ?_ ?_ heq
    · intro w hw
      rcases List.mem_map.mp hw with ⟨c, hc, hce⟩
      rw [← hce]
      exact h1 c hc
    · intro w hw
      rcases List.mem_map.mp hw with ⟨c, hc, hce⟩
      rw [← hce]
      exact h2 c hc

/-- C7 witness: underscore-freeness propagates on a concrete string, and key
equality recovers the segments of a concrete underscore-free row. -/
theorem c7_separator_amended_witness :
    '_' ∉ normChain "ab".toList ∧
    ["t".toList].map (fun c => csvSegment
        [("t".toList, PyVal.str "ab".toList)] c) =
      ["t".toList].map (fun c => csvSegment
        [("t".toList, PyVal.str "ab".toList)] c) :=
  ⟨c7_separator_amended.1 "ab".toList (by decide),
   c7_separator_amended.2 ["t".toList]
     [("t".toList, PyVal.str "ab".toList)]
     [("t".toList, PyVal.str "ab".toList)]
     (by decide) (by decide) rfl⟩

/-- C8 counterexample: in `clean_csv.py` a NaN cell does NOT contribute an
empty-string segment — `str(row[col])` runs before the NaN check, so the
segment is `"nan"`. -/
theorem c8_counterexample :
    csvSegment [("a".toList, PyVal.nan)] "a".toList = "nan".toList ∧
    "nan".toList ≠ ([] : Str) ∧
    generate_comparison_key ["a".toList] [("a".toList, PyVal.nan)] =
      "nan".toList := by
  refine ⟨by decide, by decide, by decide⟩

/-- C8 (amended): an absent column contributes the empty-string segment in
both `clean_csv.py` and `clean_xlsx.py`, and never an error; a NaN cell
contributes the empty-string segment in `clean_xlsx.py` but the segment
`"nan"` in `clean_csv.py` (whose `str(·)` precedes the NaN check). -/
theorem c8_missing_field_amended :
    (∀ (row : Row) (c : Str), rlookup c row = none →
      csvSegment row c = [] ∧ xlsxSegment row c = []) ∧
    (∀ (row : Row) (c : Str), rlookup c row = some PyVal.nan →
      xlsxSegment row c = [] ∧ csvSegment row c = "nan".toList) := by
  constructor
  · intro row c h
    unfold csvSegment xlsxSegment
    rw [h]
    exact ⟨rfl, rfl⟩
  · intro row c h
    unfold csvSegment xlsxSegment
    rw [h]
    exact ⟨rfl, by decide⟩

/-- C8 witness: the amended behaviour at concrete rows. -/
theorem c8_missing_field_amended_witness :
    csvSegment [] "a".toList = [] ∧
    xlsxSegment [("a".toList, PyVal.nan)] "a".toList = [] :=
  ⟨(c8_missing_field_amended.1 [] "a".toList rfl).1,
   (c8_missing_field_amended.2 [("a".toList, PyVal.nan)] "a".toList
     (by decide)).1⟩

/-- C9: re-running the detector on the same input and configuration yields
the same partition.  Both detectors are modelled as pure functions of the
batch (and column configuration): the mutable `removed_entries` set, the
`doi_map`, and pydash's group dict are all local to one run, and the
log-file side effects do not feed back into the partition, so determinism is
the reflexivity of these functions. -/
theorem c9_determinism :
    ∀ (es : List BibEntry) (cols : List Str) (rows : List Row),
      (dedupPairs es, unique_entries es) = (dedupPairs es, unique_entries es) ∧
      csvPartition cols rows = csvPartition cols rows :=
  fun _ _ _ => ⟨rfl, rfl⟩

/-- C10: two records whose title and author fields are all empty or missing
are fuzzy-matched — both similarities are `1` over empty normalized strings
(`T = 0` ratio convention), exceeding the 0.95/0.8 thresholds. -/
theorem c10_empty_fields_fuzzy_match (e1 e2 : BibEntry)
    (h1 : e1.title = none ∨ e1.title = some [])
    (h2 : e2.title = none ∨ e2.title = some [])
    (h3 : e1.author = none ∨ e1.author = some [])
    (h4 : e2.author = none ∨ e2.author = some []) :
    are_entries_similar e1 e2 95 100 8 10 = true := by
  have ht1 : getTitle e1 = [] := by
    unfold getTitle
    rcases h1 with h | h <;> rw [h] <;> rfl
  have ht2 : getTitle e2 = [] := by
    unfold getTitle
    rcases h2 with h | h <;> rw [h] <;> rfl
  have ha1 : getAuthor e1 = [] := by
    unfold getAuthor
    rcases h3 with h | h <;> rw [h] <;> rfl
  have ha2 : getAuthor e2 = [] := by
    unfold getAuthor
    rcases h4 with h | h <;> rw [h] <;> rfl
  unfold are_entries_similar
  rw [ht1, ht2, ha1, ha2]
  decide

/-- C10 witness: one record with empty title and missing author, one with
missing title and empty author, reported as fuzzy-similar. -/
theorem c10_empty_fields_fuzzy_match_witness :
    are_entries_similar ⟨some [], none, none⟩ ⟨none, some [], none⟩
      95 100 8 10 = true :=
  c10_empty_fields_fuzzy_match ⟨some [], none, none⟩ ⟨none, some [], none⟩
    (Or.inr rfl) (Or.inl rfl) (Or.inl rfl) (Or.inr rfl)

end RefClean

